import Mathlib

/-!
# Integer division with rounding policies (intdiv.hpp)

A shallow embedding of the header intdiv.hpp.  Values of a C++ integer type are
mathematical integers (Int) lying in the range of the type.  Every arithmetic
operation is evaluated in the type the C++ rules give it (the promoted operand
type): an operation in a signed type whose exact result is not representable
is undefined behaviour and yields none, an operation in an unsigned type wraps
modulo two to the width.  The functions of the header are therefore partial
(Option); a result some v means that no operation on the way was undefined.  A
function template that cannot be instantiated for a type has no result (none) at
that type.
-/

namespace IntDiv

/-! ## Integer types -/

/-- An integer type accepted by the concept __integer: signedness and width in bits. -/
structure IntType where
  is_signed : Bool
  bits : Nat
deriving DecidableEq, Repr

/-- The type int (signed, 32 bits). -/
def int32 : IntType := ⟨true, 32⟩

/-- The type unsigned (32 bits). -/
def uint32 : IntType := ⟨false, 32⟩

/-- The type long long, called big_int in test.cpp (signed, 64 bits). -/
def int64 : IntType := ⟨true, 64⟩

/-- The type short (signed, 16 bits). -/
def int16 : IntType := ⟨true, 16⟩

/-- The type signed char (signed, 8 bits). -/
def int8 : IntType := ⟨true, 8⟩

/-- Two to the width of the type. -/
def IntType.modulus (T : IntType) : Int := ((2 ^ T.bits : Nat) : Int)

/-- Two to the width minus one: the weight of the sign bit. -/
def IntType.half (T : IntType) : Int := ((2 ^ (T.bits - 1) : Nat) : Int)

/-- Value of std::numeric_limits<T>::min(). -/
def IntType.min_value (T : IntType) : Int :=
  if T.is_signed then -T.half else 0

/-- Value of std::numeric_limits<T>::max(). -/
def IntType.max_value (T : IntType) : Int :=
  if T.is_signed then T.half - 1 else T.modulus - 1

/-- The integer v is a value of type T. -/
def IntType.represents (T : IntType) (v : Int) : Prop :=
  T.min_value ≤ v ∧ v ≤ T.max_value

instance (T : IntType) (v : Int) : Decidable (T.represents v) := by
  unfold IntType.represents
  infer_instance

/-- The type std::make_unsigned_t<T>. -/
def IntType.make_unsigned (T : IntType) : IntType := ⟨false, T.bits⟩

/-- Integral promotion: an operand of a type narrower than int is converted to int
(32 bits) before an arithmetic operation; other types are unchanged. -/
def IntType.promote (T : IntType) : IntType :=
  if T.bits < 32 then int32 else T

/-- The conversion T(v) of an integer value to type T: the unique value of T
congruent to v modulo two to the width. -/
def IntType.convert (T : IntType) (v : Int) : Int :=
  let m := v % T.modulus
  if T.is_signed && decide (T.half ≤ m) then m - T.modulus else m

/-- The value of an operation evaluated in type A whose exact result is v:
undefined (none) when A is signed and v is not representable, wrapped when A is
unsigned. -/
def IntType.result (A : IntType) (v : Int) : Option Int :=
  if A.is_signed then (if A.represents v then some v else none)
  else some (v % A.modulus)

/-- The operation a + b evaluated in type A. -/
def IntType.add (A : IntType) (a b : Int) : Option Int := A.result (a + b)

/-- The operation a - b evaluated in type A. -/
def IntType.sub (A : IntType) (a b : Int) : Option Int := A.result (a - b)

/-- The operation a * b evaluated in type A. -/
def IntType.mul (A : IntType) (a b : Int) : Option Int := A.result (a * b)

/-- The operation a / b evaluated in type A: truncating division, undefined for
a zero divisor and when the quotient is not representable. -/
def IntType.div (A : IntType) (a b : Int) : Option Int :=
  if b = 0 then none else A.result (Int.tdiv a b)

/-- The operation a % b evaluated in type A: remainder of the truncating division,
undefined whenever a / b is. -/
def IntType.rem (A : IntType) (a b : Int) : Option Int :=
  if b = 0 then none
  else if A.represents (Int.tdiv a b) then some (Int.tmod a b) else none

/-- The conversion T(b) of a bool. -/
def of_bool (b : Bool) : Int := if b then 1 else 0

/-! ## intdiv.hpp -/

/-- The struct div_result<T>. -/
structure div_result where
  quotient : Int
  remainder : Int
deriving DecidableEq, Repr

/-- The function __sgn2. -/
def __sgn2 (T : IntType) (x : Int) : Int :=
  if T.is_signed then (if x < 0 then -1 else 1) else 1

/-- The function __div_rem_offset_quotient. -/
def __div_rem_offset_quotient (T : IntType) (x y d : Int) : Option div_result :=
  if T.is_signed then do
    let U := T.make_unsigned
    let q ← T.promote.div x y
    let qd ← T.promote.add q d
    let r ← T.promote.rem x y
    let dy ← U.promote.mul (U.convert d) (U.convert y)
    let s ← U.promote.sub (U.convert r) dy
    pure ⟨T.convert qd, T.convert s⟩
  else do
    let q ← T.promote.div x y
    let qd ← T.promote.add q d
    let r ← T.promote.rem x y
    let dy ← T.promote.mul d y
    let s ← T.promote.sub r dy
    pure ⟨T.convert qd, T.convert s⟩

/-- The call __div_rem_offset_quotient(x, y, e) made by a policy function for the
type T, where the argument e is the product T(increment) * quotient_sign and has the
promoted type.  Template argument deduction needs that type to be T itself: for a
type narrower than int the product is an int, the deduction of T conflicts, the call
is ill-formed and the policy function cannot be instantiated, so there is no result. -/
def call_div_rem_offset_quotient (T : IntType) (x y e : Int) : Option div_result :=
  if T.promote = T then __div_rem_offset_quotient T x y e else none

/-- The function div_rem_to_zero. -/
def div_rem_to_zero (T : IntType) (x y : Int) : Option div_result := do
  let q ← T.promote.div x y
  let r ← T.promote.rem x y
  pure ⟨T.convert q, T.convert r⟩

/-- The function div_to_zero. -/
def div_to_zero (T : IntType) (x y : Int) : Option Int := do
  let q ← T.promote.div x y
  pure (T.convert q)

/-- The function div_rem_away_zero. -/
def div_rem_away_zero (T : IntType) (x y : Int) : Option div_result := do
  let s ← T.promote.mul (__sgn2 T x) (__sgn2 T y)
  let quotient_sign := T.convert s
  let r ← T.promote.rem x y
  let increment := decide (r ≠ 0)
  let d ← T.promote.mul (of_bool increment) quotient_sign
  call_div_rem_offset_quotient T x y d

/-- The function div_away_zero. -/
def div_away_zero (T : IntType) (x y : Int) : Option Int :=
  (div_rem_away_zero T x y).map div_result.quotient

/-- The function div_rem_to_pos_inf.  The sign test on x ^ y uses the bitwise
exclusive or of the two values in the twos complement representation. -/
def div_rem_to_pos_inf (T : IntType) (x y : Int) : Option div_result := do
  let quotient_positive := decide (Int.xor x y ≥ 0)
  let r ← T.promote.rem x y
  let adjust := decide (r ≠ 0) && quotient_positive
  let q ← T.promote.div x y
  let qa ← T.promote.add q (of_bool adjust)
  let r2 ← T.promote.rem x y
  let ay ← T.promote.mul (of_bool adjust) y
  let s ← T.promote.sub r2 ay
  pure ⟨T.convert qa, T.convert s⟩

/-- The function div_to_pos_inf. -/
def div_to_pos_inf (T : IntType) (x y : Int) : Option Int :=
  (div_rem_to_pos_inf T x y).map div_result.quotient

/-- The function div_rem_to_neg_inf. -/
def div_rem_to_neg_inf (T : IntType) (x y : Int) : Option div_result := do
  let quotient_negative := decide (Int.xor x y < 0)
  let r ← T.promote.rem x y
  let adjust := decide (r ≠ 0) && quotient_negative
  let q ← T.promote.div x y
  let qa ← T.promote.sub q (of_bool adjust)
  let r2 ← T.promote.rem x y
  let ay ← T.promote.mul (of_bool adjust) y
  let s ← T.promote.add r2 ay
  pure ⟨T.convert qa, T.convert s⟩

/-- The function div_to_neg_inf. -/
def div_to_neg_inf (T : IntType) (x y : Int) : Option Int :=
  (div_rem_to_neg_inf T x y).map div_result.quotient

/-- The function div_rem_to_odd. -/
def div_rem_to_odd (T : IntType) (x y : Int) : Option div_result := do
  let s ← T.promote.mul (__sgn2 T x) (__sgn2 T y)
  let quotient_sign := T.convert s
  let r ← T.promote.rem x y
  let q ← T.promote.div x y
  let q2 ← T.promote.rem q 2
  let increment := decide (r ≠ 0) && decide (q2 = 0)
  let d ← T.promote.mul (of_bool increment) quotient_sign
  call_div_rem_offset_quotient T x y d

/-- The function div_to_odd. -/
def div_to_odd (T : IntType) (x y : Int) : Option Int :=
  (div_rem_to_odd T x y).map div_result.quotient

/-- The function div_rem_to_even. -/
def div_rem_to_even (T : IntType) (x y : Int) : Option div_result := do
  let s ← T.promote.mul (__sgn2 T x) (__sgn2 T y)
  let quotient_sign := T.convert s
  let r ← T.promote.rem x y
  let q ← T.promote.div x y
  let q2 ← T.promote.rem q 2
  let increment := decide (r ≠ 0) && decide (q2 ≠ 0)
  let d ← T.promote.mul (of_bool increment) quotient_sign
  call_div_rem_offset_quotient T x y d

/-- The function div_to_even. -/
def div_to_even (T : IntType) (x y : Int) : Option Int :=
  (div_rem_to_even T x y).map div_result.quotient

/-- The function div_rem_ties_to_zero. -/
def div_rem_ties_to_zero (T : IntType) (x y : Int) : Option div_result := do
  let s ← T.promote.mul (__sgn2 T x) (__sgn2 T y)
  let quotient_sign := T.convert s
  let r ← T.promote.rem x y
  let ar ← T.promote.mul r (__sgn2 T x)
  let abs_rem := T.convert ar
  let h ← T.promote.div y 2
  let ah ← T.promote.mul h (__sgn2 T y)
  let abs_half_y := T.convert ah
  let increment := decide (abs_rem > abs_half_y)
  let d ← T.promote.mul (of_bool increment) quotient_sign
  call_div_rem_offset_quotient T x y d

/-- The function div_ties_to_zero. -/
def div_ties_to_zero (T : IntType) (x y : Int) : Option Int :=
  (div_rem_ties_to_zero T x y).map div_result.quotient

/-- The function div_rem_ties_away_zero. -/
def div_rem_ties_away_zero (T : IntType) (x y : Int) : Option div_result := do
  let s ← T.promote.mul (__sgn2 T x) (__sgn2 T y)
  let quotient_sign := T.convert s
  let r ← T.promote.rem x y
  let ar ← T.promote.mul r (__sgn2 T x)
  let abs_rem := T.convert ar
  let h ← T.promote.div y 2
  let ah ← T.promote.mul h (__sgn2 T y)
  let abs_half_y := T.convert ah
  let y2 ← T.promote.rem y 2
  let t ← T.promote.add abs_half_y (of_bool (decide (y2 ≠ 0)))
  let increment := decide (abs_rem ≥ t)
  let d ← T.promote.mul (of_bool increment) quotient_sign
  call_div_rem_offset_quotient T x y d

/-- The function div_ties_away_zero. -/
def div_ties_away_zero (T : IntType) (x y : Int) : Option Int :=
  (div_rem_ties_away_zero T x y).map div_result.quotient

/-- The function div_rem_ties_to_pos_inf. -/
def div_rem_ties_to_pos_inf (T : IntType) (x y : Int) : Option div_result := do
  let s ← T.promote.mul (__sgn2 T x) (__sgn2 T y)
  let quotient_sign := T.convert s
  let r ← T.promote.rem x y
  let ar ← T.promote.mul r (__sgn2 T x)
  let abs_rem := T.convert ar
  let h ← T.promote.div y 2
  let ah ← T.promote.mul h (__sgn2 T y)
  let abs_half_y := T.convert ah
  let y2 ← T.promote.rem y 2
  let t ← T.promote.add abs_half_y (of_bool (decide (y2 ≠ 0) || decide (quotient_sign < 0)))
  let increment := decide (abs_rem ≥ t)
  let d ← T.promote.mul (of_bool increment) quotient_sign
  call_div_rem_offset_quotient T x y d

/-- The function div_ties_to_pos_inf. -/
def div_ties_to_pos_inf (T : IntType) (x y : Int) : Option Int :=
  (div_rem_ties_to_pos_inf T x y).map div_result.quotient

/-- The function div_rem_ties_to_neg_inf. -/
def div_rem_ties_to_neg_inf (T : IntType) (x y : Int) : Option div_result := do
  let s ← T.promote.mul (__sgn2 T x) (__sgn2 T y)
  let quotient_sign := T.convert s
  let r ← T.promote.rem x y
  let ar ← T.promote.mul r (__sgn2 T x)
  let abs_rem := T.convert ar
  let h ← T.promote.div y 2
  let ah ← T.promote.mul h (__sgn2 T y)
  let abs_half_y := T.convert ah
  let y2 ← T.promote.rem y 2
  let t ← T.promote.add abs_half_y (of_bool (decide (y2 ≠ 0) || decide (quotient_sign > 0)))
  let increment := decide (abs_rem ≥ t)
  let d ← T.promote.mul (of_bool increment) quotient_sign
  call_div_rem_offset_quotient T x y d

/-- The function div_ties_to_neg_inf. -/
def div_ties_to_neg_inf (T : IntType) (x y : Int) : Option Int :=
  (div_rem_ties_to_neg_inf T x y).map div_result.quotient

/-- The function div_rem_ties_to_odd. -/
def div_rem_ties_to_odd (T : IntType) (x y : Int) : Option div_result := do
  let s ← T.promote.mul (__sgn2 T x) (__sgn2 T y)
  let quotient_sign := T.convert s
  let r ← T.promote.rem x y
  let ar ← T.promote.mul r (__sgn2 T x)
  let abs_rem := T.convert ar
  let h ← T.promote.div y 2
  let ah ← T.promote.mul h (__sgn2 T y)
  let abs_half_y := T.convert ah
  let q ← T.promote.div x y
  let quotient := T.convert q
  let y2 ← T.promote.rem y 2
  let q2 ← T.promote.rem quotient 2
  let t ← T.promote.add abs_half_y (of_bool (decide (y2 ≠ 0) || decide (q2 ≠ 0)))
  let increment := decide (abs_rem ≥ t)
  let d ← T.promote.mul (of_bool increment) quotient_sign
  call_div_rem_offset_quotient T x y d

/-- The function div_ties_to_odd. -/
def div_ties_to_odd (T : IntType) (x y : Int) : Option Int :=
  (div_rem_ties_to_odd T x y).map div_result.quotient

/-- The function div_rem_ties_to_even. -/
def div_rem_ties_to_even (T : IntType) (x y : Int) : Option div_result := do
  let s ← T.promote.mul (__sgn2 T x) (__sgn2 T y)
  let quotient_sign := T.convert s
  let r ← T.promote.rem x y
  let ar ← T.promote.mul r (__sgn2 T x)
  let abs_rem := T.convert ar
  let h ← T.promote.div y 2
  let ah ← T.promote.mul h (__sgn2 T y)
  let abs_half_y := T.convert ah
  let q ← T.promote.div x y
  let quotient := T.convert q
  let y2 ← T.promote.rem y 2
  let q2 ← T.promote.rem quotient 2
  let t ← T.promote.add abs_half_y (of_bool (decide (y2 ≠ 0) || decide (q2 = 0)))
  let increment := decide (abs_rem ≥ t)
  let d ← T.promote.mul (of_bool increment) quotient_sign
  call_div_rem_offset_quotient T x y d

/-- The function div_ties_to_even. -/
def div_ties_to_even (T : IntType) (x y : Int) : Option Int :=
  (div_rem_ties_to_even T x y).map div_result.quotient

/-- The function mod. -/
def mod (T : IntType) (x y : Int) : Option Int :=
  if T.is_signed then do
    let quotient_negative := decide (Int.xor x y < 0)
    let r ← T.promote.rem x y
    let rem := T.convert r
    let m ← T.promote.mul y (of_bool (decide (rem ≠ 0) && quotient_negative))
    let s ← T.promote.add rem m
    pure (T.convert s)
  else do
    let r ← T.promote.rem x y
    pure (T.convert r)

/-! ## test.cpp -/

/-- The function is_div_defined of test.cpp: the precondition of every division. -/
def is_div_defined (T : IntType) (x y : Int) : Bool :=
  if y = 0 then false
  else if T.is_signed && (decide (x = T.min_value) && decide (y = -1)) then false
  else true

/-- The twelve paired functions, in the order of the header. -/
def div_rem_functions : List (IntType → Int → Int → Option div_result) :=
  [div_rem_to_zero, div_rem_away_zero, div_rem_to_pos_inf, div_rem_to_neg_inf,
   div_rem_to_odd, div_rem_to_even, div_rem_ties_to_zero, div_rem_ties_away_zero,
   div_rem_ties_to_pos_inf, div_rem_ties_to_neg_inf, div_rem_ties_to_odd,
   div_rem_ties_to_even]

/-- The six tie-breaking functions, in the order of the header. -/
def div_rem_ties_functions : List (IntType → Int → Int → Option div_result) :=
  [div_rem_ties_to_zero, div_rem_ties_away_zero, div_rem_ties_to_pos_inf,
   div_rem_ties_to_neg_inf, div_rem_ties_to_odd, div_rem_ties_to_even]

/-- A valid input of type T: both operands are values of T and is_div_defined holds. -/
def valid_input (T : IntType) (x y : Int) : Prop :=
  T.represents x ∧ T.represents y ∧ is_div_defined T x y = true

instance (T : IntType) (x y : Int) : Decidable (valid_input T x y) := by
  unfold valid_input
  infer_instance

/-- The truncating pair moved by one unit step in the direction of the sign product
when inc is set; the remainder is taken modulo two to the width. -/
def offset_pair (T : IntType) (x y : Int) (inc : Bool) : div_result :=
  ⟨Int.tdiv x y + of_bool inc * (__sgn2 T x * __sgn2 T y),
   T.convert (Int.tmod x y - of_bool inc * (__sgn2 T x * __sgn2 T y) * y)⟩

/-! ## Arithmetic of the truncating division -/

theorem tdiv_two (y : Int) : y.tdiv 2 = if 0 ≤ y then y / 2 else -((-y) / 2) := by
  split
  · exact Int.tdiv_eq_ediv (by assumption) (by norm_num)
  · have h : y = -(-y) := by ring
    conv_lhs => rw [h, Int.neg_tdiv]
    rw [Int.tdiv_eq_ediv (by omega) (by norm_num)]

theorem tmod_two (y : Int) : y.tmod 2 = if 0 ≤ y then y % 2 else -((-y) % 2) := by
  rw [Int.tmod_def, tdiv_two]
  split <;> omega

theorem tdiv_tmod_cases (x y : Int) (hy : y ≠ 0) :
    ∃ q r p : Int, x.tdiv y = q ∧ x.tmod y = r ∧ y * q = p ∧ p + r = x ∧
      ((0 ≤ x ∧ 0 < y ∧ 0 ≤ q ∧ 0 ≤ r ∧ r < y ∧ q ≤ p ∧ (2 ≤ y → 2 * q ≤ p)) ∨
       (0 ≤ x ∧ y < 0 ∧ q ≤ 0 ∧ 0 ≤ r ∧ r < -y ∧ -q ≤ p ∧ (y ≤ -2 → -(2 * q) ≤ p)) ∨
       (x < 0 ∧ 0 < y ∧ q ≤ 0 ∧ r ≤ 0 ∧ -y < r ∧ p ≤ q ∧ (2 ≤ y → p ≤ 2 * q)) ∨
       (x < 0 ∧ y < 0 ∧ 0 ≤ q ∧ r ≤ 0 ∧ y < r ∧ p ≤ -q ∧ (y ≤ -2 → p ≤ -(2 * q)))) := by
  refine ⟨x.tdiv y, x.tmod y, y * x.tdiv y, rfl, rfl, rfl, Int.tdiv_add_tmod x y, ?_⟩
  rcases le_or_lt 0 x with hx | hx <;> rcases lt_or_gt_of_ne hy with hy | hy
  · right; left
    have hq : x.tdiv y = -(x / (-y)) := by
      have h : y = -(-y) := by ring
      conv_lhs => rw [h, Int.tdiv_neg]
      rw [Int.tdiv_eq_ediv hx (by omega)]
    have hr : x.tmod y = x % (-y) := by
      have h : y = -(-y) := by ring
      conv_lhs => rw [h, Int.tmod_neg]
      rw [Int.tmod_eq_emod hx (by omega)]
    have h0 : 0 ≤ x / (-y) := Int.ediv_nonneg hx (by omega)
    have h1 := Int.emod_nonneg x (show -y ≠ 0 by omega)
    have h2 := Int.emod_lt_of_pos x (show 0 < -y by omega)
    rw [hq, hr]
    refine ⟨hx, hy, by omega, h1, h2, by nlinarith, fun h => by nlinarith⟩
  · left
    have hq : x.tdiv y = x / y := Int.tdiv_eq_ediv hx (by omega)
    have hr : x.tmod y = x % y := Int.tmod_eq_emod hx (by omega)
    have h0 : 0 ≤ x / y := Int.ediv_nonneg hx (by omega)
    have h1 := Int.emod_nonneg x (show y ≠ 0 by omega)
    have h2 := Int.emod_lt_of_pos x (show 0 < y by omega)
    rw [hq, hr]
    refine ⟨hx, hy, h0, h1, h2, by nlinarith, fun h => by nlinarith⟩
  · right; right; right
    have hq : x.tdiv y = (-x) / (-y) := by
      have h : y = -(-y) := by ring
      have h2 : x = -(-x) := by ring
      conv_lhs => rw [h, h2, Int.neg_tdiv_neg]
      rw [Int.tdiv_eq_ediv (by omega) (by omega)]
    have hr : x.tmod y = -((-x) % (-y)) := by
      rw [Int.tmod_def, hq]
      have := Int.emod_add_ediv (-x) (-y)
      linarith
    have h0 : 0 ≤ (-x) / (-y) := Int.ediv_nonneg (by omega) (by omega)
    have h1 := Int.emod_nonneg (-x) (show -y ≠ 0 by omega)
    have h2 := Int.emod_lt_of_pos (-x) (show 0 < -y by omega)
    rw [hq, hr]
    refine ⟨hx, hy, h0, by omega, by omega, by nlinarith, fun h => by nlinarith⟩
  · right; right; left
    have hq : x.tdiv y = -((-x) / y) := by
      have h2 : x = -(-x) := by ring
      conv_lhs => rw [h2, Int.neg_tdiv]
      rw [Int.tdiv_eq_ediv (by omega) (by omega)]
    have hr : x.tmod y = -((-x) % y) := by
      rw [Int.tmod_def, hq]
      have := Int.emod_add_ediv (-x) y
      linarith
    have h0 : 0 ≤ (-x) / y := Int.ediv_nonneg (by omega) (by omega)
    have h1 := Int.emod_nonneg (-x) (show y ≠ 0 by omega)
    have h2 := Int.emod_lt_of_pos (-x) (show 0 < y by omega)
    rw [hq, hr]
    refine ⟨hx, hy, by omega, by omega, by omega, by nlinarith, fun h => by nlinarith⟩


/-! ## Integer types without promotion -/


theorem xor_nonneg_iff (x y : Int) : 0 ≤ Int.xor x y ↔ (x < 0 ↔ y < 0) := by
  cases x <;> cases y <;> simp [Int.xor, Int.negSucc_lt_zero]
  omega

theorem IntType.modulus_eq (T : IntType) (hb : 32 ≤ T.bits) : T.modulus = 2 * T.half := by
  unfold IntType.modulus IntType.half
  have h : T.bits = (T.bits - 1) + 1 := by omega
  conv_lhs => rw [h]
  push_cast
  ring

theorem IntType.half_ge (T : IntType) (hb : 32 ≤ T.bits) : 2147483648 ≤ T.half := by
  unfold IntType.half
  have h : 2 ^ 31 ≤ 2 ^ (T.bits - 1) := Nat.pow_le_pow_right (by norm_num) (by omega)
  have h2 : ((2 ^ 31 : Nat) : Int) ≤ ((2 ^ (T.bits - 1) : Nat) : Int) := by exact_mod_cast h
  simpa using h2

theorem IntType.promote_eq (T : IntType) (hb : 32 ≤ T.bits) : T.promote = T := by
  unfold IntType.promote
  rw [if_neg (by omega)]

theorem IntType.represents_iff (T : IntType) (hb : 32 ≤ T.bits) (v : Int) :
    T.represents v ↔
      if T.is_signed then -T.half ≤ v ∧ v < T.half else 0 ≤ v ∧ v < 2 * T.half := by
  unfold IntType.represents IntType.min_value IntType.max_value
  rw [T.modulus_eq hb]
  cases T.is_signed <;> simp <;> omega

theorem IntType.convert_congr (T : IntType) {a b : Int} (h : a % T.modulus = b % T.modulus) :
    T.convert a = T.convert b := by
  unfold IntType.convert
  rw [h]

theorem IntType.convert_of_represents (T : IntType) (hb : 32 ≤ T.bits) {v : Int}
    (h : T.represents v) : T.convert v = v := by
  have hM := T.modulus_eq hb
  have hH := T.half_ge hb
  rw [T.represents_iff hb] at h
  unfold IntType.convert
  rcases hs : T.is_signed with _ | _
  · simp [hs] at h ⊢
    exact Int.emod_eq_of_lt h.1 (by omega)
  · simp [hs] at h ⊢
    rcases le_or_lt 0 v with hv | hv
    · have e : v % T.modulus = v := Int.emod_eq_of_lt hv (by omega)
      rw [e, if_neg (by omega)]
    · have e : v % T.modulus = v + T.modulus := by
        rw [← Int.add_emod_self]
        exact Int.emod_eq_of_lt (by omega) (by omega)
      rw [e, if_pos (by omega)]
      omega

theorem IntType.result_of_represents (T : IntType) (hb : 32 ≤ T.bits) {v : Int}
    (h : T.represents v) : T.result v = some v := by
  unfold IntType.result
  rcases hs : T.is_signed with _ | _
  · have hM := T.modulus_eq hb
    rw [T.represents_iff hb] at h
    simp [hs] at h ⊢
    exact Int.emod_eq_of_lt h.1 (by omega)
  · simp [h]

theorem IntType.result_unsigned (T : IntType) (hs : T.is_signed = false) (v : Int) :
    T.result v = some (v % T.modulus) := by
  unfold IntType.result
  simp [hs]

theorem IntType.convert_emod (T : IntType) (v : Int) :
    T.convert (v % T.modulus) = T.convert v :=
  T.convert_congr (Int.emod_emod_of_dvd v (dvd_refl _))

/-! ## Valid inputs -/

theorem valid_input_facts {T : IntType} (hb : 32 ≤ T.bits) {x y : Int}
    (hv : valid_input T x y) :
    y ≠ 0 ∧ 2147483648 ≤ T.half ∧
      ((T.is_signed = true ∧ -T.half ≤ x ∧ x < T.half ∧ -T.half ≤ y ∧ y < T.half ∧
          ¬(x = -T.half ∧ y = -1)) ∨
       (T.is_signed = false ∧ 0 ≤ x ∧ x < 2 * T.half ∧ 0 < y ∧ y < 2 * T.half)) := by
  obtain ⟨hx, hy, hd⟩ := hv
  rw [T.represents_iff hb] at hx hy
  have hH := T.half_ge hb
  unfold is_div_defined IntType.min_value at hd
  rcases hs : T.is_signed with _ | _
  · simp [hs] at hx hy hd
    exact ⟨hd, hH, Or.inr ⟨rfl, hx.1, hx.2, by omega, hy.2⟩⟩
  · simp [hs] at hx hy hd
    exact ⟨hd.1, hH, Or.inl ⟨rfl, hx.1, hx.2, hy.1, hy.2, not_and_or.mpr hd.2⟩⟩

/-- The five shapes of a valid input: the four sign combinations of a signed type
and the unsigned case, each with the bounds of the truncating quotient q, the
truncating remainder r and the product p = y * q. -/
theorem valid_cases {T : IntType} (hb : 32 ≤ T.bits) {x y : Int} (hv : valid_input T x y) :
    ∃ q r p : Int, x.tdiv y = q ∧ x.tmod y = r ∧ y * q = p ∧ p + r = x ∧
      2147483648 ≤ T.half ∧
      ((T.is_signed = true ∧ __sgn2 T x = 1 ∧ __sgn2 T y = 1 ∧ 0 ≤ x ∧ x < T.half ∧
          0 < y ∧ y < T.half ∧ 0 ≤ q ∧ 0 ≤ r ∧ r < y ∧ q ≤ p ∧ (2 ≤ y → 2 * q ≤ p)) ∨
       (T.is_signed = true ∧ __sgn2 T x = 1 ∧ __sgn2 T y = -1 ∧ 0 ≤ x ∧ x < T.half ∧
          -T.half ≤ y ∧ y < 0 ∧ q ≤ 0 ∧ 0 ≤ r ∧ r < -y ∧ -q ≤ p ∧
          (y ≤ -2 → -(2 * q) ≤ p)) ∨
       (T.is_signed = true ∧ __sgn2 T x = -1 ∧ __sgn2 T y = 1 ∧ -T.half ≤ x ∧ x < 0 ∧
          0 < y ∧ y < T.half ∧ q ≤ 0 ∧ r ≤ 0 ∧ -y < r ∧ p ≤ q ∧ (2 ≤ y → p ≤ 2 * q)) ∨
       (T.is_signed = true ∧ __sgn2 T x = -1 ∧ __sgn2 T y = -1 ∧ -T.half ≤ x ∧ x < 0 ∧
          -T.half ≤ y ∧ y < 0 ∧ ¬(x = -T.half ∧ y = -1) ∧ 0 ≤ q ∧ r ≤ 0 ∧ y < r ∧
          p ≤ -q ∧ (y ≤ -2 → p ≤ -(2 * q))) ∨
       (T.is_signed = false ∧ __sgn2 T x = 1 ∧ __sgn2 T y = 1 ∧ 0 ≤ x ∧ x < 2 * T.half ∧
          0 < y ∧ y < 2 * T.half ∧ 0 ≤ q ∧ 0 ≤ r ∧ r < y ∧ q ≤ p ∧ (2 ≤ y → 2 * q ≤ p))) := by
  obtain ⟨hy0, hH, hT⟩ := valid_input_facts hb hv
  obtain ⟨q, r, p, hq, hr, hp, hid, hc⟩ := tdiv_tmod_cases x y hy0
  refine ⟨q, r, p, hq, hr, hp, hid, hH, ?_⟩
  rcases hT with ⟨hs, h1, h2, h3, h4, h5⟩ | ⟨hs, h1, h2, h3, h4⟩
  · rcases hc with ⟨c1, c2, c3, c4, c5, c6, c7⟩ | ⟨c1, c2, c3, c4, c5, c6, c7⟩ |
      ⟨c1, c2, c3, c4, c5, c6, c7⟩ | ⟨c1, c2, c3, c4, c5, c6, c7⟩
    · left
      refine ⟨hs, ?_, ?_, c1, h2, c2, h4, c3, c4, c5, c6, c7⟩ <;> simp [__sgn2, hs] <;> omega
    · right; left
      refine ⟨hs, ?_, ?_, c1, h2, h3, c2, c3, c4, c5, c6, c7⟩ <;> simp [__sgn2, hs] <;> omega
    · right; right; left
      refine ⟨hs, ?_, ?_, h1, c1, c2, h4, c3, c4, c5, c6, c7⟩ <;> simp [__sgn2, hs] <;> omega
    · right; right; right; left
      refine ⟨hs, ?_, ?_, h1, c1, h3, c2, h5, c3, c4, c5, c6, c7⟩ <;> simp [__sgn2, hs] <;>
        omega
  · right; right; right; right
    rcases hc with ⟨c1, c2, c3, c4, c5, c6, c7⟩ | ⟨c1, c2, c3, c4, c5, c6, c7⟩ |
      ⟨c1, c2, c3, c4, c5, c6, c7⟩ | ⟨c1, c2, c3, c4, c5, c6, c7⟩
    · refine ⟨hs, ?_, ?_, c1, h2, c2, h4, c3, c4, c5, c6, c7⟩ <;> simp [__sgn2, hs]
    · omega
    · omega
    · omega

/-! ## The operations on a valid input -/

/-- The values every policy computes on the way are representable. -/
theorem valid_represents {T : IntType} (hb : 32 ≤ T.bits) {x y : Int}
    (hv : valid_input T x y) :
    T.represents (x.tdiv y) ∧ T.represents (x.tmod y) ∧
    T.represents (__sgn2 T x * __sgn2 T y) ∧
    (∀ b : Bool, T.represents (of_bool b * (__sgn2 T x * __sgn2 T y))) ∧
    T.represents (x.tmod y * __sgn2 T x) ∧
    T.represents (y.tdiv 2) ∧ T.represents (y.tdiv 2 * __sgn2 T y) ∧
    (∀ b : Bool, T.represents (y.tdiv 2 * __sgn2 T y + of_bool b)) ∧
    T.represents ((x.tdiv y).tdiv 2) := by
  obtain ⟨q, r, p, hq, hr, hp, hid, hH, hc⟩ := valid_cases hb hv
  have ht := tdiv_two y
  have htq := tdiv_two q
  rw [hq, hr]
  simp only [T.represents_iff hb]
  rcases hc with ⟨hs, sx, sy, c⟩ | ⟨hs, sx, sy, c⟩ | ⟨hs, sx, sy, c⟩ | ⟨hs, sx, sy, c⟩ |
      ⟨hs, sx, sy, c⟩ <;>
    simp only [hs, sx, sy, if_true, if_false, Bool.false_eq_true] <;>
    refine ⟨?_, ?_, ?_, ?_, ?_, ?_, ?_, ?_, ?_⟩ <;>
    first
      | (intro b; cases b <;> simp only [of_bool, if_true, if_false, Bool.false_eq_true] <;>
          split at ht <;> omega)
      | (split at ht <;> split at htq <;> omega)


theorem emod_sub_emod (a b M : Int) : (a - b % M) % M % M = (a - b) % M := by
  rw [Int.emod_emod_of_dvd _ (dvd_refl M)]
  exact (Int.ModEq.refl a).sub (Int.mod_modEq b M)

theorem emod_sub_mul_emod (a b c M : Int) :
    (a % M - b % M * (c % M) % M) % M % M = (a - b * c) % M := by
  rw [Int.emod_emod_of_dvd _ (dvd_refl M)]
  exact (Int.mod_modEq a M).sub
    ((Int.mod_modEq _ M).trans ((Int.mod_modEq b M).mul (Int.mod_modEq c M)))

theorem IntType.convert_unsigned (T : IntType) (hs : T.is_signed = false) (v : Int) :
    T.convert v = v % T.modulus := by
  unfold IntType.convert
  simp [hs]

theorem IntType.div_eq (T : IntType) (hb : 32 ≤ T.bits) {a b : Int} (h0 : b ≠ 0)
    (h : T.represents (a.tdiv b)) : T.promote.div a b = some (a.tdiv b) := by
  rw [T.promote_eq hb]
  unfold IntType.div
  rw [if_neg h0]
  exact T.result_of_represents hb h

theorem IntType.rem_eq (T : IntType) (hb : 32 ≤ T.bits) {a b : Int} (h0 : b ≠ 0)
    (h : T.represents (a.tdiv b)) : T.promote.rem a b = some (a.tmod b) := by
  rw [T.promote_eq hb]
  unfold IntType.rem
  rw [if_neg h0, if_pos h]

theorem IntType.mul_eq (T : IntType) (hb : 32 ≤ T.bits) {a b : Int}
    (h : T.represents (a * b)) : T.promote.mul a b = some (a * b) := by
  rw [T.promote_eq hb]
  exact T.result_of_represents hb h

theorem IntType.add_eq (T : IntType) (hb : 32 ≤ T.bits) {a b : Int}
    (h : T.represents (a + b)) : T.promote.add a b = some (a + b) := by
  rw [T.promote_eq hb]
  exact T.result_of_represents hb h

theorem IntType.sub_eq (T : IntType) (hb : 32 ≤ T.bits) {a b : Int}
    (h : T.represents (a - b)) : T.promote.sub a b = some (a - b) := by
  rw [T.promote_eq hb]
  exact T.result_of_represents hb h

/-- The quotient of an offset pair is representable. -/
theorem offset_quotient_represents {T : IntType} (hb : 32 ≤ T.bits) {x y : Int}
    (hv : valid_input T x y) (inc : Bool) (hinc : inc = true → x.tmod y ≠ 0) :
    T.represents (x.tdiv y + of_bool inc * (__sgn2 T x * __sgn2 T y)) := by
  obtain ⟨q, r, p, eq, er, hp, hid, hH, hc⟩ := valid_cases hb hv
  rw [er] at hinc
  rw [eq, T.represents_iff hb]
  rcases hc with ⟨hs, sx, sy, c⟩ | ⟨hs, sx, sy, c⟩ | ⟨hs, sx, sy, c⟩ | ⟨hs, sx, sy, c⟩ |
      ⟨hs, sx, sy, c⟩ <;>
    simp only [hs, sx, sy, if_true, if_false, Bool.false_eq_true] <;>
    cases inc <;> simp only [of_bool, if_true, if_false, Bool.false_eq_true] <;>
    simp at hinc <;> omega

/-- A converted value is a value of the type. -/
theorem IntType.convert_represents (T : IntType) (hb : 32 ≤ T.bits) (v : Int) :
    T.represents (T.convert v) := by
  have hM := T.modulus_eq hb
  have hH := T.half_ge hb
  have h1 := Int.emod_nonneg v (show T.modulus ≠ 0 by omega)
  have h2 := Int.emod_lt_of_pos v (show 0 < T.modulus by omega)
  rw [T.represents_iff hb]
  unfold IntType.convert
  rcases hs : T.is_signed with _ | _
  · simp only [Bool.false_and, Bool.false_eq_true, if_false]
    omega
  · simp only [Bool.true_and, decide_eq_true_eq, if_true]
    split <;> omega

/-- The offset helper on a valid input: when the unit step d is zero or the sign
product with a nonzero truncating remainder, no operation is undefined and the
result is the offset pair. -/
theorem offset_quotient_eq {T : IntType} (hb : 32 ≤ T.bits) {x y : Int}
    (hv : valid_input T x y) (inc : Bool) (hinc : inc = true → x.tmod y ≠ 0) :
    __div_rem_offset_quotient T x y (of_bool inc * (__sgn2 T x * __sgn2 T y)) =
      some (offset_pair T x y inc) := by
  obtain ⟨hy0, -, -⟩ := valid_input_facts hb hv
  obtain ⟨hq, hr, -⟩ := valid_represents hb hv
  have hqd := offset_quotient_represents hb hv inc hinc
  have hU : T.make_unsigned.promote = T.make_unsigned :=
    T.make_unsigned.promote_eq (by simpa [IntType.make_unsigned] using hb)
  have hUM : T.make_unsigned.modulus = T.modulus := rfl
  have hUs : T.make_unsigned.is_signed = false := rfl
  unfold __div_rem_offset_quotient offset_pair
  simp only [T.div_eq hb hy0 hq, T.rem_eq hb hy0 hq, T.add_eq hb hqd, Option.bind_eq_bind,
    Option.some_bind, Option.pure_def, T.convert_of_represents hb hqd, hU, IntType.mul,
    IntType.sub, T.make_unsigned.result_unsigned hUs, T.make_unsigned.convert_unsigned hUs,
    hUM]
  rcases hs : T.is_signed with _ | _
  · simp only [Bool.false_eq_true, if_false, T.promote_eq hb, T.result_unsigned hs,
      Option.some_bind, Option.some.injEq, div_result.mk.injEq, true_and]
    apply T.convert_congr
    exact emod_sub_emod _ _ _
  · simp only [if_true, Option.some.injEq, div_result.mk.injEq, true_and]
    apply T.convert_congr
    exact emod_sub_mul_emod _ _ _ _


/-! ## The twelve policies as offset pairs -/

/-- For a type at least as wide as int the call of the helper in a policy function is
well-formed: the argument has the type T. -/
theorem call_div_rem_offset_quotient_eq {T : IntType} (hb : 32 ≤ T.bits) (x y e : Int) :
    call_div_rem_offset_quotient T x y e = __div_rem_offset_quotient T x y e := by
  unfold call_div_rem_offset_quotient
  rw [if_pos (T.promote_eq hb)]

theorem div_rem_to_zero_eq {T : IntType} (hb : 32 ≤ T.bits) {x y : Int}
    (hv : valid_input T x y) :
    div_rem_to_zero T x y = some (offset_pair T x y false) := by
  obtain ⟨hy0, -, -⟩ := valid_input_facts hb hv
  obtain ⟨hq, hr, -⟩ := valid_represents hb hv
  unfold div_rem_to_zero offset_pair
  simp only [T.div_eq hb hy0 hq, T.rem_eq hb hy0 hq, Option.bind_eq_bind, Option.some_bind,
    Option.pure_def, T.convert_of_represents hb hq, of_bool, Bool.false_eq_true, if_false,
    zero_mul, add_zero, sub_zero]

theorem div_rem_away_zero_eq {T : IntType} (hb : 32 ≤ T.bits) {x y : Int}
    (hv : valid_input T x y) :
    div_rem_away_zero T x y = some (offset_pair T x y (decide (x.tmod y ≠ 0))) := by
  obtain ⟨hy0, -, -⟩ := valid_input_facts hb hv
  obtain ⟨hq, hr, hs, hi, -⟩ := valid_represents hb hv
  unfold div_rem_away_zero
  simp only [T.rem_eq hb hy0 hq, T.mul_eq hb hs, T.mul_eq hb (hi _), Option.bind_eq_bind,
    Option.some_bind, T.convert_of_represents hb hs, T.convert_of_represents hb (hi _)]
  rw [call_div_rem_offset_quotient_eq hb]
  exact offset_quotient_eq hb hv _ (by simp)

theorem div_rem_to_odd_eq {T : IntType} (hb : 32 ≤ T.bits) {x y : Int}
    (hv : valid_input T x y) :
    div_rem_to_odd T x y =
      some (offset_pair T x y (decide (x.tmod y ≠ 0) && decide ((x.tdiv y).tmod 2 = 0))) := by
  obtain ⟨hy0, -, -⟩ := valid_input_facts hb hv
  obtain ⟨hq, hr, hs, hi, -, -, -, -, hq2⟩ := valid_represents hb hv
  unfold div_rem_to_odd
  simp only [T.rem_eq hb hy0 hq, T.div_eq hb hy0 hq, T.rem_eq hb (by norm_num : (2 : Int) ≠ 0) hq2,
    T.mul_eq hb hs, T.mul_eq hb (hi _), Option.bind_eq_bind,
    Option.some_bind, T.convert_of_represents hb hs, T.convert_of_represents hb (hi _)]
  rw [call_div_rem_offset_quotient_eq hb]
  exact offset_quotient_eq hb hv _ (by simp; intro h _; exact h)

theorem div_rem_to_even_eq {T : IntType} (hb : 32 ≤ T.bits) {x y : Int}
    (hv : valid_input T x y) :
    div_rem_to_even T x y =
      some (offset_pair T x y (decide (x.tmod y ≠ 0) && decide ((x.tdiv y).tmod 2 ≠ 0))) := by
  obtain ⟨hy0, -, -⟩ := valid_input_facts hb hv
  obtain ⟨hq, hr, hs, hi, -, -, -, -, hq2⟩ := valid_represents hb hv
  unfold div_rem_to_even
  simp only [T.rem_eq hb hy0 hq, T.div_eq hb hy0 hq, T.rem_eq hb (by norm_num : (2 : Int) ≠ 0) hq2,
    T.mul_eq hb hs, T.mul_eq hb (hi _), Option.bind_eq_bind,
    Option.some_bind, T.convert_of_represents hb hs, T.convert_of_represents hb (hi _)]
  rw [call_div_rem_offset_quotient_eq hb]
  exact offset_quotient_eq hb hv _ (by simp; intro h _; exact h)

theorem IntType.sub_convert (T : IntType) (hb : 32 ≤ T.bits) {a b : Int}
    (h : T.is_signed = true → T.represents (a - b)) :
    ∃ s, T.promote.sub a b = some s ∧ T.convert s = T.convert (a - b) := by
  rcases hs : T.is_signed with _ | _
  · refine ⟨(a - b) % T.modulus, ?_, T.convert_emod _⟩
    rw [T.promote_eq hb]
    exact T.result_unsigned hs _
  · exact ⟨a - b, T.sub_eq hb (h hs), rfl⟩

/-- The step of the rounding toward positive infinity: it is taken along the sign
product, and the values computed on the way are representable. -/
theorem to_pos_inf_step {T : IntType} (hb : 32 ≤ T.bits) {x y : Int}
    (hv : valid_input T x y) (adj : Bool)
    (hadj : (decide (x.tmod y ≠ 0) && decide (Int.xor x y ≥ 0)) = adj) :
    of_bool adj * (__sgn2 T x * __sgn2 T y) = of_bool adj ∧
      T.represents (x.tdiv y + of_bool adj) ∧ T.represents (of_bool adj * y) ∧
      (T.is_signed = true → T.represents (x.tmod y - of_bool adj * y)) := by
  obtain ⟨hq, hr, -⟩ := valid_represents hb hv
  have hxor := xor_nonneg_iff x y
  obtain ⟨q, r, p, eq, er, hp, hid, hH, hc⟩ := valid_cases hb hv
  rw [er] at hadj
  rw [eq, er]
  simp only [T.represents_iff hb]
  cases adj
  · simp only [of_bool, Bool.false_eq_true, if_false, zero_mul, add_zero, sub_zero]
    simp only [eq, er, T.represents_iff hb] at hq hr
    refine ⟨trivial, hq, ?_, fun _ => hr⟩
    split <;> omega
  · simp only [of_bool, if_true, one_mul]
    simp only [Bool.and_eq_true, decide_eq_true_eq] at hadj
    rw [ge_iff_le, hxor] at hadj
    rcases hc with ⟨hs, sx, sy, c⟩ | ⟨hs, sx, sy, c⟩ | ⟨hs, sx, sy, c⟩ |
        ⟨hs, sx, sy, c⟩ | ⟨hs, sx, sy, c⟩ <;>
      simp only [hs, sx, sy, if_true, if_false, Bool.false_eq_true] <;>
      refine ⟨by omega, by omega, by omega, fun h => by first | omega | cases h⟩

theorem div_rem_to_pos_inf_eq {T : IntType} (hb : 32 ≤ T.bits) {x y : Int}
    (hv : valid_input T x y) :
    div_rem_to_pos_inf T x y =
      some (offset_pair T x y (decide (x.tmod y ≠ 0) && decide (Int.xor x y ≥ 0))) := by
  obtain ⟨hy0, -, -⟩ := valid_input_facts hb hv
  obtain ⟨hq, hr, -⟩ := valid_represents hb hv
  generalize hadj : (decide (x.tmod y ≠ 0) && decide (Int.xor x y ≥ 0)) = adj
  obtain ⟨hd1, hd2, hd3, hd4⟩ := to_pos_inf_step hb hv adj hadj
  obtain ⟨s, hs1, hs2⟩ := T.sub_convert hb hd4
  unfold div_rem_to_pos_inf offset_pair
  simp only [hadj, T.rem_eq hb hy0 hq, T.div_eq hb hy0 hq, T.add_eq hb hd2, T.mul_eq hb hd3,
    hs1, Option.bind_eq_bind, Option.some_bind, Option.pure_def, hs2, hd1,
    T.convert_of_represents hb hd2]

/-- The step of the rounding toward negative infinity: it is taken against the sign
product, and the values computed on the way are representable. -/
theorem to_neg_inf_step {T : IntType} (hb : 32 ≤ T.bits) {x y : Int}
    (hv : valid_input T x y) (adj : Bool)
    (hadj : (decide (x.tmod y ≠ 0) && decide (Int.xor x y < 0)) = adj) :
    of_bool adj * (__sgn2 T x * __sgn2 T y) = -of_bool adj ∧
      T.represents (x.tdiv y - of_bool adj) ∧ T.represents (of_bool adj * y) ∧
      T.represents (x.tmod y + of_bool adj * y) := by
  obtain ⟨hq, hr, -⟩ := valid_represents hb hv
  have hxor := xor_nonneg_iff x y
  obtain ⟨q, r, p, eq, er, hp, hid, hH, hc⟩ := valid_cases hb hv
  rw [er] at hadj
  rw [eq, er]
  simp only [T.represents_iff hb]
  cases adj
  · simp only [of_bool, Bool.false_eq_true, if_false, zero_mul, add_zero, sub_zero]
    simp only [eq, er, T.represents_iff hb] at hq hr
    refine ⟨by simp, hq, ?_, hr⟩
    split <;> omega
  · simp only [of_bool, if_true, one_mul]
    simp only [Bool.and_eq_true, decide_eq_true_eq] at hadj
    rw [← not_le, hxor] at hadj
    rcases hc with ⟨hs, sx, sy, c⟩ | ⟨hs, sx, sy, c⟩ | ⟨hs, sx, sy, c⟩ |
        ⟨hs, sx, sy, c⟩ | ⟨hs, sx, sy, c⟩ <;>
      simp only [hs, sx, sy, if_true, if_false, Bool.false_eq_true] <;>
      refine ⟨by omega, by omega, by omega, by omega⟩

theorem div_rem_to_neg_inf_eq {T : IntType} (hb : 32 ≤ T.bits) {x y : Int}
    (hv : valid_input T x y) :
    div_rem_to_neg_inf T x y =
      some (offset_pair T x y (decide (x.tmod y ≠ 0) && decide (Int.xor x y < 0))) := by
  obtain ⟨hy0, -, -⟩ := valid_input_facts hb hv
  obtain ⟨hq, hr, -⟩ := valid_represents hb hv
  generalize hadj : (decide (x.tmod y ≠ 0) && decide (Int.xor x y < 0)) = adj
  obtain ⟨hd1, hd2, hd3, hd4⟩ := to_neg_inf_step hb hv adj hadj
  have hd5 := T.convert_of_represents hb hd2
  rw [sub_eq_add_neg] at hd5
  unfold div_rem_to_neg_inf offset_pair
  simp only [hadj, T.rem_eq hb hy0 hq, T.div_eq hb hy0 hq, T.sub_eq hb hd2, T.mul_eq hb hd3,
    T.add_eq hb hd4, Option.bind_eq_bind, Option.some_bind, Option.pure_def, hd1,
    hd5, sub_eq_add_neg, neg_mul, neg_neg]

theorem mod_eq {T : IntType} (hb : 32 ≤ T.bits) {x y : Int} (hv : valid_input T x y) :
    mod T x y = some (offset_pair T x y
      (decide (x.tmod y ≠ 0) && decide (Int.xor x y < 0))).remainder := by
  obtain ⟨hy0, -, -⟩ := valid_input_facts hb hv
  obtain ⟨hq, hr, -⟩ := valid_represents hb hv
  obtain ⟨hd1, hd2, hd3, hd4⟩ := to_neg_inf_step hb hv _ rfl
  rw [mul_comm] at hd3
  rw [mul_comm (of_bool _) y] at hd4
  unfold mod offset_pair
  simp only [T.rem_eq hb hy0 hq, T.convert_of_represents hb hr, T.mul_eq hb hd3,
    T.add_eq hb hd4, Option.bind_eq_bind, Option.some_bind, Option.pure_def, hd1,
    sub_eq_add_neg, neg_mul, neg_neg, mul_comm (of_bool _) y]
  rcases hs : T.is_signed with _ | _
  · have h0 : of_bool (decide (x.tmod y ≠ 0) && decide (Int.xor x y < 0)) = 0 := by
      simp only [__sgn2, hs, Bool.false_eq_true, if_false] at hd1
      omega
    simp only [Bool.false_eq_true, if_false, h0, mul_zero, add_zero,
      T.convert_of_represents hb hr]
  · simp only [if_true]



/-- A tie-breaking decision that fires leaves a nonzero truncating remainder. -/
theorem ties_increment_nonzero {T : IntType} (hb : 32 ≤ T.bits) {x y : Int}
    (hv : valid_input T x y) :
    (x.tmod y * __sgn2 T x > y.tdiv 2 * __sgn2 T y → x.tmod y ≠ 0) ∧
    (∀ c : Bool, x.tmod y * __sgn2 T x ≥
        y.tdiv 2 * __sgn2 T y + of_bool (decide (y.tmod 2 ≠ 0) || c) → x.tmod y ≠ 0) := by
  obtain ⟨q, r, p, eq, er, hp, hid, hH, hc⟩ := valid_cases hb hv
  have ht := tdiv_two y
  have hm := tmod_two y
  rw [er]
  constructor
  · rcases hc with ⟨hs, sx, sy, c⟩ | ⟨hs, sx, sy, c⟩ | ⟨hs, sx, sy, c⟩ | ⟨hs, sx, sy, c⟩ |
        ⟨hs, sx, sy, c⟩ <;>
      simp only [sx, sy] <;> split at ht <;> omega
  · intro c
    by_cases hodd : y.tmod 2 ≠ 0
    · rw [decide_eq_true hodd]
      simp only [Bool.true_or, of_bool, if_true]
      rcases hc with ⟨hs, sx, sy, c⟩ | ⟨hs, sx, sy, c⟩ | ⟨hs, sx, sy, c⟩ | ⟨hs, sx, sy, c⟩ |
          ⟨hs, sx, sy, c⟩ <;>
        simp only [sx, sy] <;> split at ht <;> omega
    · have hc0 : (0 : Int) ≤ of_bool c := by cases c <;> simp [of_bool]
      rw [decide_eq_false hodd]
      simp only [Bool.false_or]
      rw [not_not] at hodd
      rw [hodd] at hm
      rcases hc with ⟨hs, sx, sy, c⟩ | ⟨hs, sx, sy, c⟩ | ⟨hs, sx, sy, c⟩ | ⟨hs, sx, sy, c⟩ |
          ⟨hs, sx, sy, c⟩ <;>
        simp only [sx, sy] <;> split at ht <;> split at hm <;> omega


theorem div_rem_ties_to_zero_eq {T : IntType} (hb : 32 ≤ T.bits) {x y : Int}
    (hv : valid_input T x y) :
    div_rem_ties_to_zero T x y = some (offset_pair T x y
      (decide (x.tmod y * __sgn2 T x > y.tdiv 2 * __sgn2 T y))) := by
  obtain ⟨hy0, -, -⟩ := valid_input_facts hb hv
  obtain ⟨hq, hr, hs, hi, har, hh, hah, hth, hq2⟩ := valid_represents hb hv
  have hz := ties_increment_nonzero hb hv
  have h2 : (2 : Int) ≠ 0 := by norm_num
  unfold div_rem_ties_to_zero
  simp only [T.rem_eq hb hy0 hq, T.div_eq hb hy0 hq, T.mul_eq hb hs, T.mul_eq hb (hi _), T.mul_eq hb har, T.div_eq hb h2 hh, T.mul_eq hb hah, T.rem_eq hb h2 hh, T.rem_eq hb h2 hq2, T.add_eq hb (hth _), Option.bind_eq_bind, Option.some_bind, T.convert_of_represents hb hs, T.convert_of_represents hb (hi _), T.convert_of_represents hb har, T.convert_of_represents hb hah, T.convert_of_represents hb hq]
  rw [call_div_rem_offset_quotient_eq hb]
  exact offset_quotient_eq hb hv _ (fun h => hz.1 (of_decide_eq_true h))

theorem div_rem_ties_away_zero_eq {T : IntType} (hb : 32 ≤ T.bits) {x y : Int}
    (hv : valid_input T x y) :
    div_rem_ties_away_zero T x y = some (offset_pair T x y
      (decide (x.tmod y * __sgn2 T x ≥
        y.tdiv 2 * __sgn2 T y + of_bool (decide (y.tmod 2 ≠ 0))))) := by
  obtain ⟨hy0, -, -⟩ := valid_input_facts hb hv
  obtain ⟨hq, hr, hs, hi, har, hh, hah, hth, hq2⟩ := valid_represents hb hv
  have hz := ties_increment_nonzero hb hv
  have h2 : (2 : Int) ≠ 0 := by norm_num
  unfold div_rem_ties_away_zero
  simp only [T.rem_eq hb hy0 hq, T.div_eq hb hy0 hq, T.mul_eq hb hs, T.mul_eq hb (hi _), T.mul_eq hb har, T.div_eq hb h2 hh, T.mul_eq hb hah, T.rem_eq hb h2 hh, T.rem_eq hb h2 hq2, T.add_eq hb (hth _), Option.bind_eq_bind, Option.some_bind, T.convert_of_represents hb hs, T.convert_of_represents hb (hi _), T.convert_of_represents hb har, T.convert_of_represents hb hah, T.convert_of_represents hb hq]
  rw [call_div_rem_offset_quotient_eq hb]
  exact offset_quotient_eq hb hv _ (fun h => hz.2 false (by rw [Bool.or_false]; exact of_decide_eq_true h))

theorem div_rem_ties_to_pos_inf_eq {T : IntType} (hb : 32 ≤ T.bits) {x y : Int}
    (hv : valid_input T x y) :
    div_rem_ties_to_pos_inf T x y = some (offset_pair T x y
      (decide (x.tmod y * __sgn2 T x ≥ y.tdiv 2 * __sgn2 T y +
        of_bool (decide (y.tmod 2 ≠ 0) || decide (__sgn2 T x * __sgn2 T y < 0))))) := by
  obtain ⟨hy0, -, -⟩ := valid_input_facts hb hv
  obtain ⟨hq, hr, hs, hi, har, hh, hah, hth, hq2⟩ := valid_represents hb hv
  have hz := ties_increment_nonzero hb hv
  have h2 : (2 : Int) ≠ 0 := by norm_num
  unfold div_rem_ties_to_pos_inf
  simp only [T.rem_eq hb hy0 hq, T.div_eq hb hy0 hq, T.mul_eq hb hs, T.mul_eq hb (hi _), T.mul_eq hb har, T.div_eq hb h2 hh, T.mul_eq hb hah, T.rem_eq hb h2 hh, T.rem_eq hb h2 hq2, T.add_eq hb (hth _), Option.bind_eq_bind, Option.some_bind, T.convert_of_represents hb hs, T.convert_of_represents hb (hi _), T.convert_of_represents hb har, T.convert_of_represents hb hah, T.convert_of_represents hb hq]
  rw [call_div_rem_offset_quotient_eq hb]
  exact offset_quotient_eq hb hv _ (fun h => hz.2 _ (of_decide_eq_true h))

theorem div_rem_ties_to_neg_inf_eq {T : IntType} (hb : 32 ≤ T.bits) {x y : Int}
    (hv : valid_input T x y) :
    div_rem_ties_to_neg_inf T x y = some (offset_pair T x y
      (decide (x.tmod y * __sgn2 T x ≥ y.tdiv 2 * __sgn2 T y +
        of_bool (decide (y.tmod 2 ≠ 0) || decide (__sgn2 T x * __sgn2 T y > 0))))) := by
  obtain ⟨hy0, -, -⟩ := valid_input_facts hb hv
  obtain ⟨hq, hr, hs, hi, har, hh, hah, hth, hq2⟩ := valid_represents hb hv
  have hz := ties_increment_nonzero hb hv
  have h2 : (2 : Int) ≠ 0 := by norm_num
  unfold div_rem_ties_to_neg_inf
  simp only [T.rem_eq hb hy0 hq, T.div_eq hb hy0 hq, T.mul_eq hb hs, T.mul_eq hb (hi _), T.mul_eq hb har, T.div_eq hb h2 hh, T.mul_eq hb hah, T.rem_eq hb h2 hh, T.rem_eq hb h2 hq2, T.add_eq hb (hth _), Option.bind_eq_bind, Option.some_bind, T.convert_of_represents hb hs, T.convert_of_represents hb (hi _), T.convert_of_represents hb har, T.convert_of_represents hb hah, T.convert_of_represents hb hq]
  rw [call_div_rem_offset_quotient_eq hb]
  exact offset_quotient_eq hb hv _ (fun h => hz.2 _ (of_decide_eq_true h))

theorem div_rem_ties_to_odd_eq {T : IntType} (hb : 32 ≤ T.bits) {x y : Int}
    (hv : valid_input T x y) :
    div_rem_ties_to_odd T x y = some (offset_pair T x y
      (decide (x.tmod y * __sgn2 T x ≥ y.tdiv 2 * __sgn2 T y +
        of_bool (decide (y.tmod 2 ≠ 0) || decide ((x.tdiv y).tmod 2 ≠ 0))))) := by
  obtain ⟨hy0, -, -⟩ := valid_input_facts hb hv
  obtain ⟨hq, hr, hs, hi, har, hh, hah, hth, hq2⟩ := valid_represents hb hv
  have hz := ties_increment_nonzero hb hv
  have h2 : (2 : Int) ≠ 0 := by norm_num
  unfold div_rem_ties_to_odd
  simp only [T.rem_eq hb hy0 hq, T.div_eq hb hy0 hq, T.mul_eq hb hs, T.mul_eq hb (hi _), T.mul_eq hb har, T.div_eq hb h2 hh, T.mul_eq hb hah, T.rem_eq hb h2 hh, T.rem_eq hb h2 hq2, T.add_eq hb (hth _), Option.bind_eq_bind, Option.some_bind, T.convert_of_represents hb hs, T.convert_of_represents hb (hi _), T.convert_of_represents hb har, T.convert_of_represents hb hah, T.convert_of_represents hb hq]
  rw [call_div_rem_offset_quotient_eq hb]
  exact offset_quotient_eq hb hv _ (fun h => hz.2 _ (of_decide_eq_true h))

theorem div_rem_ties_to_even_eq {T : IntType} (hb : 32 ≤ T.bits) {x y : Int}
    (hv : valid_input T x y) :
    div_rem_ties_to_even T x y = some (offset_pair T x y
      (decide (x.tmod y * __sgn2 T x ≥ y.tdiv 2 * __sgn2 T y +
        of_bool (decide (y.tmod 2 ≠ 0) || decide ((x.tdiv y).tmod 2 = 0))))) := by
  obtain ⟨hy0, -, -⟩ := valid_input_facts hb hv
  obtain ⟨hq, hr, hs, hi, har, hh, hah, hth, hq2⟩ := valid_represents hb hv
  have hz := ties_increment_nonzero hb hv
  have h2 : (2 : Int) ≠ 0 := by norm_num
  unfold div_rem_ties_to_even
  simp only [T.rem_eq hb hy0 hq, T.div_eq hb hy0 hq, T.mul_eq hb hs, T.mul_eq hb (hi _), T.mul_eq hb har, T.div_eq hb h2 hh, T.mul_eq hb hah, T.rem_eq hb h2 hh, T.rem_eq hb h2 hq2, T.add_eq hb (hth _), Option.bind_eq_bind, Option.some_bind, T.convert_of_represents hb hs, T.convert_of_represents hb (hi _), T.convert_of_represents hb har, T.convert_of_represents hb hah, T.convert_of_represents hb hq]
  rw [call_div_rem_offset_quotient_eq hb]
  exact offset_quotient_eq hb hv _ (fun h => hz.2 _ (of_decide_eq_true h))


/-! ## The values of an offset pair -/

/-- In a signed type the remainder of an offset pair is exact. -/
theorem offset_pair_remainder_signed {T : IntType} (hb : 32 ≤ T.bits) {x y : Int}
    (hv : valid_input T x y) (hs : T.is_signed = true) (inc : Bool)
    (hinc : inc = true → x.tmod y ≠ 0) :
    (offset_pair T x y inc).remainder =
      x.tmod y - of_bool inc * (__sgn2 T x * __sgn2 T y) * y := by
  unfold offset_pair
  apply T.convert_of_represents hb
  obtain ⟨q, r, p, eq, er, hp, hid, hH, hc⟩ := valid_cases hb hv
  rw [er] at hinc ⊢
  rw [T.represents_iff hb]
  rcases hc with ⟨-, sx, sy, c⟩ | ⟨-, sx, sy, c⟩ | ⟨-, sx, sy, c⟩ | ⟨-, sx, sy, c⟩ |
      ⟨hs2, -⟩
  pick_goal 5
  · rw [hs] at hs2; cases hs2
  all_goals
    simp only [hs, sx, sy, if_true]
    cases inc <;> simp only [of_bool, if_true, if_false, Bool.false_eq_true] <;>
      simp at hinc <;> omega

/-- In an unsigned type the remainder of an offset pair wraps when the quotient
is incremented. -/
theorem offset_pair_remainder_unsigned {T : IntType} (hb : 32 ≤ T.bits) {x y : Int}
    (hv : valid_input T x y) (hs : T.is_signed = false) (inc : Bool) :
    (offset_pair T x y inc).remainder =
      x.tmod y - of_bool inc * y + of_bool inc * T.modulus ∧
    (offset_pair T x y inc).quotient = x.tdiv y + of_bool inc := by
  unfold offset_pair
  obtain ⟨q, r, p, eq, er, hp, hid, hH, hc⟩ := valid_cases hb hv
  have hM := T.modulus_eq hb
  rw [er, T.convert_unsigned hs]
  rcases hc with ⟨hs1, sx, sy, c⟩ | ⟨hs1, sx, sy, c⟩ | ⟨hs1, sx, sy, c⟩ | ⟨hs1, sx, sy, c⟩ |
      ⟨hs2, sx, sy, c⟩
  · rw [hs] at hs1; cases hs1
  · rw [hs] at hs1; cases hs1
  · rw [hs] at hs1; cases hs1
  · rw [hs] at hs1; cases hs1
  · simp only [sx, sy, mul_one]
    cases inc <;> simp only [of_bool, if_true, if_false, Bool.false_eq_true, zero_mul, one_mul,
      sub_zero, add_zero, and_true]
    · exact Int.emod_eq_of_lt (by omega) (by omega)
    · rw [← Int.add_emod_self]
      exact Int.emod_eq_of_lt (by omega) (by omega)

/-- The remainder of an offset pair without a step is the truncating remainder. -/
theorem offset_pair_false {T : IntType} (hb : 32 ≤ T.bits) {x y : Int}
    (hv : valid_input T x y) :
    offset_pair T x y false = ⟨x.tdiv y, x.tmod y⟩ := by
  obtain ⟨-, hr, -⟩ := valid_represents hb hv
  simp only [offset_pair, of_bool, Bool.false_eq_true, if_false, zero_mul, add_zero, sub_zero,
    T.convert_of_represents hb hr]

/-- The tie-breaking functions are among the twelve paired functions. -/
theorem ties_functions_subset {f : IntType → Int → Int → Option div_result}
    (hf : f ∈ div_rem_ties_functions) : f ∈ div_rem_functions := by
  simp only [div_rem_ties_functions, List.mem_cons, List.mem_singleton, List.not_mem_nil,
    or_false] at hf
  rcases hf with h | h | h | h | h | h <;> subst h <;>
    simp only [div_rem_functions, List.mem_cons, true_or, or_true]

/-- Every policy returns an offset pair whose step is taken only from a nonzero
truncating remainder. -/
theorem policy_cases {T : IntType} (hb : 32 ≤ T.bits) {x y : Int} (hv : valid_input T x y) :
    ∀ f ∈ div_rem_functions, ∃ inc : Bool, (inc = true → x.tmod y ≠ 0) ∧
      f T x y = some (offset_pair T x y inc) := by
  have hz := ties_increment_nonzero hb hv
  intro f hf
  simp only [div_rem_functions, List.mem_cons, List.mem_singleton, List.not_mem_nil,
    or_false] at hf
  rcases hf with h | h | h | h | h | h | h | h | h | h | h | h <;> subst h
  · exact ⟨_, by simp, div_rem_to_zero_eq hb hv⟩
  · exact ⟨_, by simp, div_rem_away_zero_eq hb hv⟩
  · exact ⟨_, by simp; intro h _; exact h, div_rem_to_pos_inf_eq hb hv⟩
  · exact ⟨_, by simp; intro h _; exact h, div_rem_to_neg_inf_eq hb hv⟩
  · exact ⟨_, by simp; intro h _; exact h, div_rem_to_odd_eq hb hv⟩
  · exact ⟨_, by simp; intro h _; exact h, div_rem_to_even_eq hb hv⟩
  · exact ⟨_, fun h => hz.1 (of_decide_eq_true h), div_rem_ties_to_zero_eq hb hv⟩
  · exact ⟨_, fun h => hz.2 false (by rw [Bool.or_false]; exact of_decide_eq_true h),
      div_rem_ties_away_zero_eq hb hv⟩
  · exact ⟨_, fun h => hz.2 _ (of_decide_eq_true h), div_rem_ties_to_pos_inf_eq hb hv⟩
  · exact ⟨_, fun h => hz.2 _ (of_decide_eq_true h), div_rem_ties_to_neg_inf_eq hb hv⟩
  · exact ⟨_, fun h => hz.2 _ (of_decide_eq_true h), div_rem_ties_to_odd_eq hb hv⟩
  · exact ⟨_, fun h => hz.2 _ (of_decide_eq_true h), div_rem_ties_to_even_eq hb hv⟩


/-! ## Floor, ceiling, sign and magnitude by integer inequalities -/

/-- The floor of a rational quotient of integers, from the product p = y * q. -/
theorem floor_div_eq (x y q p : Int) (hp : y * q = p)
    (h : (0 < y ∧ p ≤ x ∧ x < p + y) ∨ (y < 0 ∧ p + y < x ∧ x ≤ p)) :
    ⌊(x : ℚ) / (y : ℚ)⌋ = q := by
  have e : (q + 1) * y = p + y := by rw [← hp]; ring
  have e2 : q * y = p := by rw [← hp]; ring
  rw [Int.floor_eq_iff]
  rcases h with ⟨hy, h1, h2⟩ | ⟨hy, h1, h2⟩
  · have hy' : (0 : ℚ) < (y : ℚ) := by exact_mod_cast hy
    rw [le_div_iff₀ hy', div_lt_iff₀ hy']
    rw [← e2] at h1
    rw [← e] at h2
    exact ⟨by exact_mod_cast h1, by exact_mod_cast h2⟩
  · have hy' : (y : ℚ) < 0 := by exact_mod_cast hy
    rw [le_div_iff_of_neg hy', div_lt_iff_of_neg hy']
    rw [← e] at h1
    rw [← e2] at h2
    exact ⟨by exact_mod_cast h2, by exact_mod_cast h1⟩

/-- The ceiling of a rational quotient of integers, from the product p = y * q. -/
theorem ceil_div_eq (x y q p : Int) (hp : y * q = p)
    (h : (0 < y ∧ p - y < x ∧ x ≤ p) ∨ (y < 0 ∧ p ≤ x ∧ x < p - y)) :
    ⌈(x : ℚ) / (y : ℚ)⌉ = q := by
  have e : (q - 1) * y = p - y := by rw [← hp]; ring
  have e2 : q * y = p := by rw [← hp]; ring
  rw [Int.ceil_eq_iff]
  rcases h with ⟨hy, h1, h2⟩ | ⟨hy, h1, h2⟩
  · have hy' : (0 : ℚ) < (y : ℚ) := by exact_mod_cast hy
    rw [lt_div_iff₀ hy', div_le_iff₀ hy']
    rw [← e] at h1
    rw [← e2] at h2
    exact ⟨by exact_mod_cast h1, by exact_mod_cast h2⟩
  · have hy' : (y : ℚ) < 0 := by exact_mod_cast hy
    rw [lt_div_iff_of_neg hy', div_le_iff_of_neg hy']
    rw [← e2] at h1
    rw [← e] at h2
    exact ⟨by exact_mod_cast h2, by exact_mod_cast h1⟩

theorem sign_eq_of (a b : Int) (h : (0 < a ∧ 0 < b) ∨ (a < 0 ∧ b < 0)) :
    Int.sign a = Int.sign b := by
  rcases h with ⟨h1, h2⟩ | ⟨h1, h2⟩
  · rw [Int.sign_eq_one_of_pos h1, Int.sign_eq_one_of_pos h2]
  · rw [Int.sign_eq_neg_one_of_neg h1, Int.sign_eq_neg_one_of_neg h2]

theorem sign_ne_of (a b : Int) (h : (0 < a ∧ b < 0) ∨ (a < 0 ∧ 0 < b)) :
    Int.sign a ≠ Int.sign b := by
  rcases h with ⟨h1, h2⟩ | ⟨h1, h2⟩
  · rw [Int.sign_eq_one_of_pos h1, Int.sign_eq_neg_one_of_neg h2]; decide
  · rw [Int.sign_eq_neg_one_of_neg h1, Int.sign_eq_one_of_pos h2]; decide

theorem rat_div_pos_iff (x y : Int) :
    0 < (x : ℚ) / (y : ℚ) ↔ (0 < x ∧ 0 < y) ∨ (x < 0 ∧ y < 0) := by
  rw [div_pos_iff]
  simp only [Int.cast_pos, Int.cast_lt_zero]

theorem abs_lt_abs_of (a b : Int)
    (h : (0 < b ∧ -b < a ∧ a < b) ∨ (b < 0 ∧ b < a ∧ a < -b)) : |a| < |b| := by
  rcases h with ⟨h1, h2, h3⟩ | ⟨h1, h2, h3⟩
  · rw [abs_of_pos h1, abs_lt]; exact ⟨h2, h3⟩
  · rw [abs_of_neg h1, abs_lt]; exact ⟨by omega, h3⟩

theorem sign_cases (a : Int) :
    (0 < a ∧ Int.sign a = 1) ∨ (a = 0 ∧ Int.sign a = 0) ∨ (a < 0 ∧ Int.sign a = -1) := by
  rcases lt_trichotomy a 0 with h | h | h
  · exact Or.inr (Or.inr ⟨h, Int.sign_eq_neg_one_of_neg h⟩)
  · exact Or.inr (Or.inl ⟨h, by rw [h]; rfl⟩)
  · exact Or.inl ⟨h, Int.sign_eq_one_of_pos h⟩

/-- The ceiling of the quotient of the magnitudes, from the product p = y * q. -/
theorem ceil_abs_div_eq (x y q p : Int) (hp : y * q = p)
    (h : (0 ≤ x ∧ 0 < y ∧ 0 ≤ q ∧ p - y < x ∧ x ≤ p) ∨
         (0 ≤ x ∧ y < 0 ∧ q ≤ 0 ∧ p + y < x ∧ x ≤ p) ∨
         (x < 0 ∧ 0 < y ∧ q ≤ 0 ∧ x < p + y ∧ p ≤ x) ∨
         (x < 0 ∧ y < 0 ∧ 0 ≤ q ∧ x < p - y ∧ p ≤ x)) :
    |q| = ⌈((|x| : Int) : ℚ) / ((|y| : Int) : ℚ)⌉ := by
  symm
  rcases h with ⟨hx, hy, hq, h1, h2⟩ | ⟨hx, hy, hq, h1, h2⟩ | ⟨hx, hy, hq, h1, h2⟩ |
      ⟨hx, hy, hq, h1, h2⟩
  · rw [abs_of_nonneg hx, abs_of_pos hy, abs_of_nonneg hq]
    exact ceil_div_eq x y q p hp (Or.inl ⟨hy, h1, h2⟩)
  · rw [abs_of_nonneg hx, abs_of_neg hy, abs_of_nonpos hq]
    exact ceil_div_eq x (-y) (-q) p (by rw [← hp]; ring) (Or.inl ⟨by omega, by omega, h2⟩)
  · rw [abs_of_neg hx, abs_of_pos hy, abs_of_nonpos hq]
    exact ceil_div_eq (-x) y (-q) (-p) (by rw [← hp]; ring)
      (Or.inl ⟨hy, by omega, by omega⟩)
  · rw [abs_of_neg hx, abs_of_neg hy, abs_of_nonneg hq]
    exact ceil_div_eq (-x) (-y) q (-p) (by rw [← hp]; ring)
      (Or.inl ⟨by omega, by omega, by omega⟩)

/-- On a valid input the sign helper agrees with the sign of a nonzero operand. -/
theorem sgn2_eq_sign {T : IntType} (hb : 32 ≤ T.bits) {x y : Int} (hv : valid_input T x y) :
    (x ≠ 0 → __sgn2 T x = Int.sign x) ∧ __sgn2 T y = Int.sign y := by
  obtain ⟨q, r, p, eq, er, hp, hid, hH, hc⟩ := valid_cases hb hv
  rcases hc with ⟨-, sx, sy, c⟩ | ⟨-, sx, sy, c⟩ | ⟨-, sx, sy, c⟩ | ⟨-, sx, sy, c⟩ |
      ⟨-, sx, sy, c⟩ <;>
    rw [sx, sy] <;>
    rcases sign_cases x with ⟨hx, ex⟩ | ⟨hx, ex⟩ | ⟨hx, ex⟩ <;>
    rcases sign_cases y with ⟨hy, ey⟩ | ⟨hy, ey⟩ | ⟨hy, ey⟩ <;>
    rw [ex, ey] <;> omega

theorem xor_neg_iff (x y : Int) : Int.xor x y < 0 ↔ ¬(x < 0 ↔ y < 0) := by
  rw [← not_le, xor_nonneg_iff]

theorem to_neg_inf_decision (x y : Int) :
    (decide (x.tmod y ≠ 0) && decide (Int.xor x y < 0)) = true ↔
      x.tmod y ≠ 0 ∧ ¬(x < 0 ↔ y < 0) := by
  rw [Bool.and_eq_true, decide_eq_true_eq, decide_eq_true_eq, xor_neg_iff]

theorem to_pos_inf_decision (x y : Int) :
    (decide (x.tmod y ≠ 0) && decide (Int.xor x y ≥ 0)) = true ↔
      x.tmod y ≠ 0 ∧ (x < 0 ↔ y < 0) := by
  rw [Bool.and_eq_true, decide_eq_true_eq, decide_eq_true_eq, ge_iff_le, xor_nonneg_iff]

/-! ## The tie-breaking decisions -/

/-- The magnitudes compared by the tie-breaking functions: abs_rem is the magnitude
of the truncating remainder, and the magnitude of y is twice abs_half_y, plus one
when y is odd. -/
theorem ties_magnitudes {T : IntType} (hb : 32 ≤ T.bits) {x y : Int}
    (hv : valid_input T x y) :
    |x.tmod y| = x.tmod y * __sgn2 T x ∧ 0 ≤ y.tdiv 2 * __sgn2 T y ∧
    ((y.tmod 2 = 0 ∧ |y| = 2 * (y.tdiv 2 * __sgn2 T y)) ∨
     (y.tmod 2 ≠ 0 ∧ |y| = 2 * (y.tdiv 2 * __sgn2 T y) + 1)) := by
  obtain ⟨q, r, p, eq, er, hp, hid, hH, hc⟩ := valid_cases hb hv
  have ht := tdiv_two y
  have hm := tmod_two y
  rw [er, ht, hm]
  rcases hc with ⟨-, sx, sy, c⟩ | ⟨-, sx, sy, c⟩ | ⟨-, sx, sy, c⟩ | ⟨-, sx, sy, c⟩ |
      ⟨-, sx, sy, c⟩
  · rw [sx, sy, abs_of_nonneg c.2.2.2.2.2.1, abs_of_pos c.2.2.1, if_pos (by omega),
      if_pos (by omega)]
    omega
  · rw [sx, sy, abs_of_nonneg c.2.2.2.2.2.1, abs_of_neg c.2.2.2.1, if_neg (by omega),
      if_neg (by omega)]
    omega
  · rw [sx, sy, abs_of_nonpos c.2.2.2.2.2.1, abs_of_pos c.2.2.1, if_pos (by omega),
      if_pos (by omega)]
    omega
  · rw [sx, sy, abs_of_nonpos c.2.2.2.2.2.2.1, abs_of_neg c.2.2.2.1, if_neg (by omega),
      if_neg (by omega)]
    omega
  · rw [sx, sy, abs_of_nonneg c.2.2.2.2.2.1, abs_of_pos c.2.2.1, if_pos (by omega),
      if_pos (by omega)]
    omega

/-- The comparison of abs_rem with the threshold of a tie-breaking function, whose
extra unit t is set whenever y is odd: above the half it holds, below the half it
fails, and on an exact tie it holds exactly when t is not set. -/
theorem ties_threshold_decision {T : IntType} (hb : 32 ≤ T.bits) {x y : Int}
    (hv : valid_input T x y) (t : Bool) (ht : y.tmod 2 ≠ 0 → t = true) :
    (2 * |x.tmod y| > |y| →
      x.tmod y * __sgn2 T x ≥ y.tdiv 2 * __sgn2 T y + of_bool t) ∧
    (2 * |x.tmod y| < |y| →
      ¬(x.tmod y * __sgn2 T x ≥ y.tdiv 2 * __sgn2 T y + of_bool t)) ∧
    (2 * |x.tmod y| = |y| →
      (x.tmod y * __sgn2 T x ≥ y.tdiv 2 * __sgn2 T y + of_bool t ↔ t = false)) := by
  obtain ⟨h1, h2, h3⟩ := ties_magnitudes hb hv
  rw [h1]
  generalize x.tmod y * __sgn2 T x = a at *
  generalize y.tdiv 2 * __sgn2 T y = h at *
  generalize |y| = Y at *
  cases t
  · have ht2 : y.tmod 2 = 0 := by
      by_contra hne
      exact absurd (ht hne) (by decide)
    simp only [of_bool, Bool.false_eq_true, if_false, iff_true]
    refine ⟨fun h5 => ?_, fun h5 => ?_, fun h5 => ?_⟩ <;> omega
  · simp only [of_bool, if_true, Bool.true_eq_false, iff_false]
    refine ⟨fun h5 => ?_, fun h5 => ?_, fun h5 => ?_⟩ <;> omega

/-- The comparison of ties_to_zero: it holds above the half and fails otherwise. -/
theorem ties_to_zero_decision {T : IntType} (hb : 32 ≤ T.bits) {x y : Int}
    (hv : valid_input T x y) :
    (2 * |x.tmod y| > |y| → x.tmod y * __sgn2 T x > y.tdiv 2 * __sgn2 T y) ∧
    (2 * |x.tmod y| ≤ |y| → ¬(x.tmod y * __sgn2 T x > y.tdiv 2 * __sgn2 T y)) := by
  obtain ⟨h1, h2, h3⟩ := ties_magnitudes hb hv
  rw [h1]
  generalize x.tmod y * __sgn2 T x = a at *
  generalize y.tdiv 2 * __sgn2 T y = h at *
  generalize |y| = Y at *
  refine ⟨fun h5 => ?_, fun h5 => ?_⟩ <;> omega

/-- Off the tie every tie-breaking function returns the same offset pair: with the
step above the half, without it below the half. -/
theorem ties_off_tie_pairs {T : IntType} (hb : 32 ≤ T.bits) {x y : Int}
    (hv : valid_input T x y) :
    ∀ f ∈ div_rem_ties_functions,
      (2 * |x.tmod y| > |y| → f T x y = some (offset_pair T x y true)) ∧
      (2 * |x.tmod y| < |y| → f T x y = some (offset_pair T x y false)) := by
  have hz := ties_to_zero_decision hb hv
  have ht := fun (c : Bool) => ties_threshold_decision hb hv (decide (y.tmod 2 ≠ 0) || c)
    (fun h => by rw [decide_eq_true h]; rfl)
  have ha := ties_threshold_decision hb hv (decide (y.tmod 2 ≠ 0)) (fun h => decide_eq_true h)
  intro f hf
  simp only [div_rem_ties_functions, List.mem_cons, List.mem_singleton, List.not_mem_nil,
    or_false] at hf
  rcases hf with h | h | h | h | h | h <;> subst h
  · rw [div_rem_ties_to_zero_eq hb hv]
    exact ⟨fun h => by rw [decide_eq_true (hz.1 h)],
      fun h => by rw [decide_eq_false (hz.2 (le_of_lt h))]⟩
  · rw [div_rem_ties_away_zero_eq hb hv]
    exact ⟨fun h => by rw [decide_eq_true (ha.1 h)], fun h => by rw [decide_eq_false (ha.2.1 h)]⟩
  · rw [div_rem_ties_to_pos_inf_eq hb hv]
    exact ⟨fun h => by rw [decide_eq_true ((ht _).1 h)],
      fun h => by rw [decide_eq_false ((ht _).2.1 h)]⟩
  · rw [div_rem_ties_to_neg_inf_eq hb hv]
    exact ⟨fun h => by rw [decide_eq_true ((ht _).1 h)],
      fun h => by rw [decide_eq_false ((ht _).2.1 h)]⟩
  · rw [div_rem_ties_to_odd_eq hb hv]
    exact ⟨fun h => by rw [decide_eq_true ((ht _).1 h)],
      fun h => by rw [decide_eq_false ((ht _).2.1 h)]⟩
  · rw [div_rem_ties_to_even_eq hb hv]
    exact ⟨fun h => by rw [decide_eq_true ((ht _).1 h)],
      fun h => by rw [decide_eq_false ((ht _).2.1 h)]⟩

/-- A nonzero truncating remainder comes from a nonzero dividend. -/
theorem dividend_ne_zero {x y : Int} (h : x.tmod y ≠ 0) : x ≠ 0 := by
  intro hx
  rw [hx, Int.zero_tmod] at h
  exact h rfl

/-- The quotient of an offset pair with the step, in terms of the signs. -/
theorem offset_pair_true_quotient {T : IntType} (hb : 32 ≤ T.bits) {x y : Int}
    (hv : valid_input T x y) (h : x.tmod y ≠ 0) :
    (offset_pair T x y true).quotient = x.tdiv y + Int.sign x * Int.sign y := by
  obtain ⟨hsx, hsy⟩ := sgn2_eq_sign hb hv
  simp only [offset_pair, of_bool, if_true, one_mul, hsx (dividend_ne_zero h), hsy]

/-- On an exact tie the divisor is even and the truncating remainder is nonzero. -/
theorem tie_even {T : IntType} (hb : 32 ≤ T.bits) {x y : Int} (hv : valid_input T x y)
    (htie : 2 * |x.tmod y| = |y|) : y.tmod 2 = 0 ∧ x.tmod y ≠ 0 := by
  obtain ⟨hy0, -, -⟩ := valid_input_facts hb hv
  obtain ⟨h1, h2, h3⟩ := ties_magnitudes hb hv
  have hy : 0 < |y| := abs_pos.mpr hy0
  constructor
  · rw [h1] at htie
    generalize x.tmod y * __sgn2 T x = a at *
    generalize y.tdiv 2 * __sgn2 T y = h at *
    generalize |y| = Y at *
    by_contra hne
    omega
  · intro h0
    rw [h0, abs_zero, mul_zero] at htie
    omega


/-! ## The claims -/

/-- Claim C1. For signed 32-bit operands and every valid input, each of the twelve
paired functions returns a pair (q, r), no operation on the way being undefined, with
x = y * q + r as an equation over the integers. -/
theorem signed_division_identity (x y : Int) (hv : valid_input int32 x y) :
    ∀ f ∈ div_rem_functions, ∃ q r : Int, f int32 x y = some ⟨q, r⟩ ∧
      int32.represents q ∧ int32.represents r ∧ x = y * q + r := by
  intro f hf
  have hb : 32 ≤ int32.bits := le_refl 32
  obtain ⟨inc, hinc, hf⟩ := policy_cases hb hv f hf
  have hrem := offset_pair_remainder_signed hb hv rfl inc hinc
  refine ⟨(offset_pair int32 x y inc).quotient, (offset_pair int32 x y inc).remainder, hf,
    ?_, ?_, ?_⟩
  · exact offset_quotient_represents hb hv inc hinc
  · exact int32.convert_represents hb _
  · rw [hrem]
    simp only [offset_pair]
    linear_combination -(Int.tdiv_add_tmod x y)

theorem signed_division_identity_witness :
    valid_input int32 (-2147483648) (-2) ∧
    ∀ f ∈ div_rem_functions, ∃ q r : Int, f int32 (-2147483648) (-2) = some ⟨q, r⟩ ∧
      int32.represents q ∧ int32.represents r ∧ (-2147483648 : Int) = (-2) * q + r :=
  ⟨by decide, signed_division_identity _ _ (by decide)⟩


/-- Claim C2. For unsigned 32-bit operands and every nonzero divisor, each of the
twelve paired functions returns a pair (q, r) with x = (y * q + r) mod 2^32: either the
truncating pair, or the incremented quotient with the wrapped remainder
x % y - y + 2^32.  The two static assertions of test.cpp on 72777531 and 3405476348
hold. -/
theorem unsigned_division_identity (x y : Int) (hv : valid_input uint32 x y) :
    (∀ f ∈ div_rem_functions, ∃ q r : Int, f uint32 x y = some ⟨q, r⟩ ∧
      x = (y * q + r) % 2 ^ 32 ∧
      ((q = x.tdiv y ∧ r = x.tmod y) ∨
       (q = x.tdiv y + 1 ∧ r = x.tmod y - y + 2 ^ 32))) ∧
    div_rem_away_zero uint32 72777531 3405476348 = some ⟨1, 962268479⟩ ∧
    (div_rem_to_pos_inf uint32 72777531 3405476348).map div_result.remainder =
      some 962268479 := by
  refine ⟨?_, by decide, by decide⟩
  intro f hf
  have hb : 32 ≤ uint32.bits := le_refl 32
  obtain ⟨inc, hinc, hf⟩ := policy_cases hb hv f hf
  obtain ⟨hrem, hquo⟩ := offset_pair_remainder_unsigned hb hv rfl inc
  refine ⟨(offset_pair uint32 x y inc).quotient, (offset_pair uint32 x y inc).remainder, hf,
    ?_⟩
  rw [hrem, hquo]
  obtain ⟨-, -, hT⟩ := valid_input_facts hb hv
  have hM : uint32.modulus = 4294967296 := by decide
  have hH : uint32.half = 2147483648 := by decide
  have hid := Int.tdiv_add_tmod x y
  rw [hM]
  rcases hT with ⟨hs, -⟩ | ⟨-, h1, h2, h3, h4⟩
  · cases hs
  · rw [hH] at h2
    cases inc
    · simp only [of_bool, Bool.false_eq_true, if_false, zero_mul, sub_zero, add_zero]
      refine ⟨?_, Or.inl ⟨trivial, trivial⟩⟩
      rw [hid]
      norm_num
      omega
    · simp only [of_bool, if_true, one_mul]
      refine ⟨?_, Or.inr ⟨trivial, by norm_num⟩⟩
      have e : y * (x.tdiv y + 1) + (x.tmod y - y + 4294967296) = x + 4294967296 := by
        linear_combination hid
      rw [e]
      norm_num
      omega

theorem unsigned_division_identity_witness :
    valid_input uint32 72777531 3405476348 ∧
    ((∀ f ∈ div_rem_functions, ∃ q r : Int, f uint32 72777531 3405476348 = some ⟨q, r⟩ ∧
      (72777531 : Int) = (3405476348 * q + r) % 2 ^ 32 ∧
      ((q = Int.tdiv 72777531 3405476348 ∧ r = Int.tmod 72777531 3405476348) ∨
       (q = Int.tdiv 72777531 3405476348 + 1 ∧
        r = Int.tmod 72777531 3405476348 - 3405476348 + 2 ^ 32))) ∧
    div_rem_away_zero uint32 72777531 3405476348 = some ⟨1, 962268479⟩ ∧
    (div_rem_to_pos_inf uint32 72777531 3405476348).map div_result.remainder =
      some 962268479) :=
  ⟨by decide, unsigned_division_identity _ _ (by decide)⟩


/-- Claim C3. For signed 32-bit operands and every valid input, no operation that any
of the twelve paired functions or mod evaluates in the signed type overflows: each
function returns a result (in the embedding an overflowing signed operation yields
none), and the truncating quotient and remainder, the sign product, abs_rem,
abs_half_y and the threshold abs_half_y + 1 are values of the type. -/
theorem signed_no_overflow (x y : Int) (hv : valid_input int32 x y) :
    (∀ f ∈ div_rem_functions, (f int32 x y).isSome = true) ∧
    (mod int32 x y).isSome = true ∧
    int32.represents (x.tdiv y) ∧ int32.represents (x.tmod y) ∧
    int32.represents (__sgn2 int32 x * __sgn2 int32 y) ∧
    int32.represents (x.tmod y * __sgn2 int32 x) ∧
    int32.represents (y.tdiv 2 * __sgn2 int32 y) ∧
    int32.represents (y.tdiv 2 * __sgn2 int32 y + 1) := by
  have hb : 32 ≤ int32.bits := le_refl 32
  obtain ⟨h1, h2, h3, -, h5, -, h7, h8, -⟩ := valid_represents hb hv
  refine ⟨?_, ?_, h1, h2, h3, h5, h7, h8 true⟩
  · intro f hf
    obtain ⟨inc, -, hf⟩ := policy_cases hb hv f hf
    rw [hf]
    rfl
  · rw [mod_eq hb hv]
    rfl

theorem signed_no_overflow_witness :
    (valid_input int32 (-2147483648) (-2) ∧
      (∀ f ∈ div_rem_functions, (f int32 (-2147483648) (-2)).isSome = true) ∧
      (mod int32 (-2147483648) (-2)).isSome = true) ∧
    (valid_input int32 (-2147483648) (-2147483648) ∧
      (∀ f ∈ div_rem_functions, (f int32 (-2147483648) (-2147483648)).isSome = true) ∧
      (mod int32 (-2147483648) (-2147483648)).isSome = true) ∧
    (valid_input int32 (-2147483648) 2147483647 ∧
      (∀ f ∈ div_rem_functions, (f int32 (-2147483648) 2147483647).isSome = true) ∧
      (mod int32 (-2147483648) 2147483647).isSome = true) ∧
    (valid_input int32 2147483647 (-2147483648) ∧
      (∀ f ∈ div_rem_functions, (f int32 2147483647 (-2147483648)).isSome = true) ∧
      (mod int32 2147483647 (-2147483648)).isSome = true) :=
  ⟨⟨by decide, (signed_no_overflow _ _ (by decide)).1, (signed_no_overflow _ _ (by decide)).2.1⟩,
   ⟨by decide, (signed_no_overflow _ _ (by decide)).1, (signed_no_overflow _ _ (by decide)).2.1⟩,
   ⟨by decide, (signed_no_overflow _ _ (by decide)).1, (signed_no_overflow _ _ (by decide)).2.1⟩,
   ⟨by decide, (signed_no_overflow _ _ (by decide)).1, (signed_no_overflow _ _ (by decide)).2.1⟩⟩


/-- Claim C4. For every integer type at least as wide as int, signed or unsigned, every
valid input and each of the twelve paired functions, the returned quotient is within
one of the truncating quotient, and on an exact multiple the function returns the
pair (x / y, 0). -/
theorem quotient_tolerance (T : IntType) (hb : 32 ≤ T.bits) (x y : Int)
    (hv : valid_input T x y) :
    ∀ f ∈ div_rem_functions, ∃ q r : Int, f T x y = some ⟨q, r⟩ ∧
      |q - x.tdiv y| ≤ 1 ∧ (x.tmod y = 0 → q = x.tdiv y ∧ r = 0) := by
  intro f hf
  obtain ⟨inc, hinc, hf⟩ := policy_cases hb hv f hf
  refine ⟨(offset_pair T x y inc).quotient, (offset_pair T x y inc).remainder, hf, ?_, ?_⟩
  · simp only [offset_pair, add_sub_cancel_left]
    obtain ⟨q, r, p, eq, er, hp, hid, hH, hc⟩ := valid_cases hb hv
    rw [abs_le]
    rcases hc with ⟨hs, sx, sy, c⟩ | ⟨hs, sx, sy, c⟩ | ⟨hs, sx, sy, c⟩ | ⟨hs, sx, sy, c⟩ |
        ⟨hs, sx, sy, c⟩ <;>
      simp only [sx, sy] <;> cases inc <;> simp [of_bool]
  · intro h0
    have hfalse : inc = false := by
      cases inc
      · rfl
      · exact absurd h0 (hinc rfl)
    subst hfalse
    have hz : T.represents 0 := by
      have hH := T.half_ge hb
      rw [T.represents_iff hb]
      split <;> omega
    simp only [offset_pair, of_bool, Bool.false_eq_true, if_false, zero_mul, add_zero,
      sub_zero, h0, T.convert_of_represents hb hz, and_self]

theorem quotient_tolerance_witness :
    (32 ≤ uint32.bits ∧ valid_input uint32 72777531 3405476348) ∧
    ∀ f ∈ div_rem_functions, ∃ q r : Int, f uint32 72777531 3405476348 = some ⟨q, r⟩ ∧
      |q - Int.tdiv 72777531 3405476348| ≤ 1 ∧
      (Int.tmod 72777531 3405476348 = 0 → q = Int.tdiv 72777531 3405476348 ∧ r = 0) :=
  ⟨by decide, quotient_tolerance uint32 (by decide) _ _ (by decide)⟩


/-- Claim C5. For every integer type at least as wide as int and every valid input,
the quotient of div_rem_to_neg_inf is the floor of the exact quotient x / y; for a
signed type its remainder is zero or has the sign of y and is smaller than y in
magnitude, for an unsigned type its remainder is smaller than y. -/
theorem to_neg_inf_floor (T : IntType) (hb : 32 ≤ T.bits) (x y : Int)
    (hv : valid_input T x y) :
    ∃ q r : Int, div_rem_to_neg_inf T x y = some ⟨q, r⟩ ∧
      q = ⌊(x : ℚ) / (y : ℚ)⌋ ∧
      (T.is_signed = true → (r = 0 ∨ Int.sign r = Int.sign y) ∧ |r| < |y|) ∧
      (T.is_signed = false → r < y) := by
  have hf := div_rem_to_neg_inf_eq hb hv
  have hA := to_neg_inf_decision x y
  generalize hadj : (decide (x.tmod y ≠ 0) && decide (Int.xor x y < 0)) = adj at hf hA
  obtain ⟨hd1, -, -, hd4⟩ := to_neg_inf_step hb hv adj hadj
  have hrem : (offset_pair T x y adj).remainder = x.tmod y + of_bool adj * y := by
    simp only [offset_pair, hd1, neg_mul, sub_neg_eq_add]
    exact T.convert_of_represents hb hd4
  have hquo : (offset_pair T x y adj).quotient = x.tdiv y - of_bool adj := by
    simp only [offset_pair, hd1, sub_eq_add_neg]
  refine ⟨(offset_pair T x y adj).quotient, (offset_pair T x y adj).remainder, hf,
    ?_, ?_, ?_⟩
  all_goals
    simp only [hrem, hquo]
    obtain ⟨q, r, p, eq, er, hp, hid, hH, hc⟩ := valid_cases hb hv
    simp only [eq, er] at hA ⊢
  · symm
    cases adj
    · simp only [Bool.false_eq_true, false_iff] at hA
      simp only [of_bool, Bool.false_eq_true, if_false, sub_zero]
      apply floor_div_eq x y q p hp
      omega
    · simp only [true_iff] at hA
      simp only [of_bool, if_true]
      apply floor_div_eq x y (q - 1) (p - y) (by rw [← hp]; ring)
      omega
  · intro hs
    cases adj
    · simp only [Bool.false_eq_true, false_iff] at hA
      simp only [of_bool, Bool.false_eq_true, if_false, zero_mul, add_zero]
      have h1 : r = 0 ∨ (0 < r ∧ 0 < y) ∨ (r < 0 ∧ y < 0) := by omega
      have h2 : (0 < y ∧ -y < r ∧ r < y) ∨ (y < 0 ∧ y < r ∧ r < -y) := by omega
      exact ⟨h1.imp_right (sign_eq_of r y), abs_lt_abs_of r y h2⟩
    · simp only [true_iff] at hA
      simp only [of_bool, if_true, one_mul]
      have h1 : r + y = 0 ∨ (0 < r + y ∧ 0 < y) ∨ (r + y < 0 ∧ y < 0) := by omega
      have h2 : (0 < y ∧ -y < r + y ∧ r + y < y) ∨ (y < 0 ∧ y < r + y ∧ r + y < -y) := by
        omega
      exact ⟨h1.imp_right (sign_eq_of (r + y) y), abs_lt_abs_of (r + y) y h2⟩
  · intro hs
    rcases hc with ⟨hs1, -⟩ | ⟨hs1, -⟩ | ⟨hs1, -⟩ | ⟨hs1, -⟩ | ⟨-, sx, sy, c⟩
    · rw [hs] at hs1; cases hs1
    · rw [hs] at hs1; cases hs1
    · rw [hs] at hs1; cases hs1
    · rw [hs] at hs1; cases hs1
    · cases adj
      · simp only [of_bool, Bool.false_eq_true, if_false, zero_mul, add_zero]
        omega
      · simp only [true_iff] at hA
        omega

theorem to_neg_inf_floor_witness :
    (32 ≤ int32.bits ∧ valid_input int32 (-7) 2) ∧
    ∃ q r : Int, div_rem_to_neg_inf int32 (-7) 2 = some ⟨q, r⟩ ∧
      q = ⌊((-7 : Int) : ℚ) / ((2 : Int) : ℚ)⌋ ∧
      (int32.is_signed = true → (r = 0 ∨ Int.sign r = Int.sign 2) ∧ |r| < |(2 : Int)|) ∧
      (int32.is_signed = false → r < 2) :=
  ⟨by decide, to_neg_inf_floor int32 (by decide) (-7) 2 (by decide)⟩


/-- Claim C6. For every integer type at least as wide as int and every valid input,
the quotient of div_rem_to_pos_inf is the ceiling of the exact quotient x / y: it is
the truncating quotient plus one exactly when the exact quotient is positive and
x % y is nonzero, and the truncating quotient otherwise; for a signed type its
remainder is zero or has the sign opposite to y. -/
theorem to_pos_inf_ceil (T : IntType) (hb : 32 ≤ T.bits) (x y : Int)
    (hv : valid_input T x y) :
    ∃ q r : Int, div_rem_to_pos_inf T x y = some ⟨q, r⟩ ∧
      q = ⌈(x : ℚ) / (y : ℚ)⌉ ∧
      (0 < (x : ℚ) / (y : ℚ) ∧ x.tmod y ≠ 0 → q = x.tdiv y + 1) ∧
      (¬(0 < (x : ℚ) / (y : ℚ) ∧ x.tmod y ≠ 0) → q = x.tdiv y) ∧
      (T.is_signed = true → r = 0 ∨ Int.sign r ≠ Int.sign y) := by
  have hf := div_rem_to_pos_inf_eq hb hv
  have hA := to_pos_inf_decision x y
  generalize hadj : (decide (x.tmod y ≠ 0) && decide (Int.xor x y ≥ 0)) = adj at hf hA
  obtain ⟨hd1, -, -, hd4⟩ := to_pos_inf_step hb hv adj hadj
  have hrem : T.is_signed = true →
      (offset_pair T x y adj).remainder = x.tmod y - of_bool adj * y := by
    intro hs
    simp only [offset_pair, hd1]
    exact T.convert_of_represents hb (hd4 hs)
  have hquo : (offset_pair T x y adj).quotient = x.tdiv y + of_bool adj := by
    simp only [offset_pair, hd1]
  refine ⟨(offset_pair T x y adj).quotient, (offset_pair T x y adj).remainder, hf,
    ?_, ?_, ?_, ?_⟩
  all_goals
    try simp only [hquo, rat_div_pos_iff]
    obtain ⟨q, r, p, eq, er, hp, hid, hH, hc⟩ := valid_cases hb hv
    simp only [eq, er] at hA hrem ⊢
  · symm
    cases adj
    · simp only [Bool.false_eq_true, false_iff] at hA
      simp only [of_bool, Bool.false_eq_true, if_false, add_zero]
      apply ceil_div_eq x y q p hp
      omega
    · simp only [true_iff] at hA
      simp only [of_bool, if_true]
      apply ceil_div_eq x y (q + 1) (p + y) (by rw [← hp]; ring)
      omega
  · cases adj
    · simp only [Bool.false_eq_true, false_iff] at hA
      simp only [of_bool, Bool.false_eq_true, if_false, add_zero]
      omega
    · simp only [of_bool, if_true, implies_true]
  · cases adj
    · simp only [of_bool, Bool.false_eq_true, if_false, add_zero, implies_true]
    · simp only [true_iff] at hA
      simp only [of_bool, if_true]
      omega
  · intro hs
    rw [hrem hs]
    cases adj
    · simp only [Bool.false_eq_true, false_iff] at hA
      simp only [of_bool, Bool.false_eq_true, if_false, zero_mul, sub_zero]
      have h1 : r = 0 ∨ (0 < r ∧ y < 0) ∨ (r < 0 ∧ 0 < y) := by omega
      exact h1.imp_right (sign_ne_of r y)
    · simp only [true_iff] at hA
      simp only [of_bool, if_true, one_mul]
      have h1 : r - y = 0 ∨ (0 < r - y ∧ y < 0) ∨ (r - y < 0 ∧ 0 < y) := by omega
      exact h1.imp_right (sign_ne_of (r - y) y)

theorem to_pos_inf_ceil_witness :
    (32 ≤ int32.bits ∧ valid_input int32 7 2) ∧
    ∃ q r : Int, div_rem_to_pos_inf int32 7 2 = some ⟨q, r⟩ ∧
      q = ⌈((7 : Int) : ℚ) / ((2 : Int) : ℚ)⌉ ∧
      (0 < ((7 : Int) : ℚ) / ((2 : Int) : ℚ) ∧ Int.tmod 7 2 ≠ 0 → q = Int.tdiv 7 2 + 1) ∧
      (¬(0 < ((7 : Int) : ℚ) / ((2 : Int) : ℚ) ∧ Int.tmod 7 2 ≠ 0) → q = Int.tdiv 7 2) ∧
      (int32.is_signed = true → r = 0 ∨ Int.sign r ≠ Int.sign 2) :=
  ⟨by decide, to_pos_inf_ceil int32 (by decide) 7 2 (by decide)⟩


/-- Claim C7. For every signed integer type at least as wide as int and every valid
input, div_rem_away_zero returns the truncating quotient plus sign(x) * sign(y) when
x % y is nonzero and the truncating quotient otherwise, so that the magnitude of the
quotient is the ceiling of the quotient of the magnitudes; its remainder is zero or
has the sign opposite to x, and is smaller than y in magnitude. -/
theorem away_zero_signed (T : IntType) (hb : 32 ≤ T.bits) (hs : T.is_signed = true)
    (x y : Int) (hv : valid_input T x y) :
    ∃ q r : Int, div_rem_away_zero T x y = some ⟨q, r⟩ ∧
      (x.tmod y ≠ 0 → q = x.tdiv y + Int.sign x * Int.sign y) ∧
      (x.tmod y = 0 → q = x.tdiv y) ∧
      |q| = ⌈((|x| : Int) : ℚ) / ((|y| : Int) : ℚ)⌉ ∧
      (r = 0 ∨ Int.sign r ≠ Int.sign x) ∧ |r| < |y| := by
  have hf := div_rem_away_zero_eq hb hv
  have hA : decide (x.tmod y ≠ 0) = true ↔ x.tmod y ≠ 0 := decide_eq_true_iff
  generalize hinc : decide (x.tmod y ≠ 0) = inc at hf hA
  have hrem := offset_pair_remainder_signed hb hv hs inc hA.mp
  have hquo : (offset_pair T x y inc).quotient =
      x.tdiv y + of_bool inc * (__sgn2 T x * __sgn2 T y) := rfl
  refine ⟨(offset_pair T x y inc).quotient, (offset_pair T x y inc).remainder, hf, ?_⟩
  rw [hrem, hquo]
  obtain ⟨q, r, p, eq, er, hp, hid, hH, hc⟩ := valid_cases hb hv
  simp only [eq, er] at hA ⊢
  obtain ⟨hsx, hsy⟩ := sgn2_eq_sign hb hv
  refine ⟨?_, ?_, ?_, ?_, ?_⟩
  · intro hr
    have hx0 : x ≠ 0 := by
      rcases hc with ⟨-, -, -, c⟩ | ⟨-, -, -, c⟩ | ⟨-, -, -, c⟩ | ⟨-, -, -, c⟩ | ⟨-, -, -, c⟩ <;>
        omega
    rw [← hsx hx0, ← hsy, hA.mpr hr]
    simp only [of_bool, if_true, one_mul]
  · intro hr
    have hfalse : inc = false := by
      cases inc
      · rfl
      · exact absurd hr (hA.mp rfl)
    simp only [hfalse, of_bool, Bool.false_eq_true, if_false, zero_mul, add_zero]
  all_goals
    rcases hc with ⟨-, sx, sy, c⟩ | ⟨-, sx, sy, c⟩ | ⟨-, sx, sy, c⟩ | ⟨-, sx, sy, c⟩ |
        ⟨hs2, -⟩
    pick_goal 5
    · rw [hs] at hs2; cases hs2
    all_goals
      simp only [sx, sy]
      cases inc <;>
        simp only [of_bool, if_true, if_false, Bool.false_eq_true, true_iff, false_iff,
          not_not, ne_eq, not_true_eq_false, not_false_eq_true] at hA ⊢
      all_goals
        first
          | (apply ceil_abs_div_eq x y _ p (by rw [← hp]; ring); omega)
          | (apply ceil_abs_div_eq x y _ (p + y) (by rw [← hp]; ring); omega)
          | (apply ceil_abs_div_eq x y _ (p - y) (by rw [← hp]; ring); omega)
          | (left; omega)
          | (right; apply sign_ne_of; omega)
          | (apply abs_lt_abs_of; omega)

theorem away_zero_signed_witness :
    (32 ≤ int32.bits ∧ int32.is_signed = true ∧ valid_input int32 (-2147483648) 2147483647) ∧
    ∃ q r : Int, div_rem_away_zero int32 (-2147483648) 2147483647 = some ⟨q, r⟩ ∧
      (Int.tmod (-2147483648) 2147483647 ≠ 0 →
        q = Int.tdiv (-2147483648) 2147483647 + Int.sign (-2147483648) * Int.sign 2147483647) ∧
      (Int.tmod (-2147483648) 2147483647 = 0 → q = Int.tdiv (-2147483648) 2147483647) ∧
      |q| = ⌈((|(-2147483648)| : Int) : ℚ) / ((|2147483647| : Int) : ℚ)⌉ ∧
      (r = 0 ∨ Int.sign r ≠ Int.sign (-2147483648)) ∧ |r| < |(2147483647 : Int)| :=
  ⟨by decide, away_zero_signed int32 (by decide) (by decide) _ _ (by decide)⟩


/-- Claim C8. For every integer type at least as wide as int, signed or unsigned, and
every valid input for which x is not an exact multiple of y, the quotient of
div_rem_to_odd is odd and the quotient of div_rem_to_even is even; in terms of the
returned pair, div_rem_to_odd yields r = 0 or q odd and div_rem_to_even yields r = 0
or q even. -/
theorem parity_policies (T : IntType) (hb : 32 ≤ T.bits) (x y : Int)
    (hv : valid_input T x y) :
    (∃ q r : Int, div_rem_to_odd T x y = some ⟨q, r⟩ ∧
      (x.tmod y ≠ 0 → Odd q) ∧ (r = 0 ∨ Odd q)) ∧
    (∃ q r : Int, div_rem_to_even T x y = some ⟨q, r⟩ ∧
      (x.tmod y ≠ 0 → Even q) ∧ (r = 0 ∨ Even q)) := by
  have hodd := div_rem_to_odd_eq hb hv
  have heven := div_rem_to_even_eq hb hv
  have h0 := offset_pair_false hb hv
  have hm := tmod_two (x.tdiv y)
  obtain ⟨q, r, p, eq, er, hp, hid, hH, hc⟩ := valid_cases hb hv
  simp only [eq, er] at hodd heven h0 hm ⊢
  have key1 : r ≠ 0 → Odd (offset_pair T x y
      (decide (r ≠ 0) && decide (q.tmod 2 = 0))).quotient := by
    intro hr
    rw [Int.odd_iff]
    simp only [offset_pair, eq]
    by_cases hq : q.tmod 2 = 0
    · rw [decide_eq_true hr, decide_eq_true hq]
      rw [hq] at hm
      rcases hc with ⟨-, sx, sy, c⟩ | ⟨-, sx, sy, c⟩ | ⟨-, sx, sy, c⟩ | ⟨-, sx, sy, c⟩ |
          ⟨-, sx, sy, c⟩ <;>
        simp only [sx, sy, of_bool, Bool.and_self, if_true] <;> split at hm <;> omega
    · rw [decide_eq_false hq]
      simp only [Bool.and_false, of_bool, Bool.false_eq_true, if_false, zero_mul, add_zero]
      split at hm <;> omega
  have key2 : r ≠ 0 → Even (offset_pair T x y
      (decide (r ≠ 0) && decide (q.tmod 2 ≠ 0))).quotient := by
    intro hr
    rw [Int.even_iff]
    simp only [offset_pair, eq]
    by_cases hq : q.tmod 2 ≠ 0
    · rw [decide_eq_true hr, decide_eq_true hq]
      rcases hc with ⟨-, sx, sy, c⟩ | ⟨-, sx, sy, c⟩ | ⟨-, sx, sy, c⟩ | ⟨-, sx, sy, c⟩ |
          ⟨-, sx, sy, c⟩ <;>
        simp only [sx, sy, of_bool, Bool.and_self, if_true] <;> split at hm <;> omega
    · rw [decide_eq_false hq]
      rw [not_not] at hq
      rw [hq] at hm
      simp only [Bool.and_false, of_bool, Bool.false_eq_true, if_false, zero_mul, add_zero]
      split at hm <;> omega
  constructor
  · refine ⟨(offset_pair T x y _).quotient, (offset_pair T x y _).remainder, hodd, key1, ?_⟩
    by_cases hr : r = 0
    · left
      rw [decide_eq_false (not_not.mpr hr), Bool.false_and, h0]
      exact hr
    · exact Or.inr (key1 hr)
  · refine ⟨(offset_pair T x y _).quotient, (offset_pair T x y _).remainder, heven, key2,
      ?_⟩
    by_cases hr : r = 0
    · left
      rw [decide_eq_false (not_not.mpr hr), Bool.false_and, h0]
      exact hr
    · exact Or.inr (key2 hr)

theorem parity_policies_witness :
    (32 ≤ uint32.bits ∧ valid_input uint32 72777531 3405476348) ∧
    (∃ q r : Int, div_rem_to_odd uint32 72777531 3405476348 = some ⟨q, r⟩ ∧
      (Int.tmod 72777531 3405476348 ≠ 0 → Odd q) ∧ (r = 0 ∨ Odd q)) ∧
    (∃ q r : Int, div_rem_to_even uint32 72777531 3405476348 = some ⟨q, r⟩ ∧
      (Int.tmod 72777531 3405476348 ≠ 0 → Even q) ∧ (r = 0 ∨ Even q)) :=
  ⟨by decide, parity_policies uint32 (by decide) _ _ (by decide)⟩


/-- Claim C9. For every integer type at least as wide as int, every valid input and
each of the six tie-breaking functions: if 2 * |x % y| > |y| the quotient is the
truncating quotient plus sign(x) * sign(y), and if 2 * |x % y| < |y| the result is the
truncating pair; off the tie all six return the same pair. -/
theorem ties_off_tie (T : IntType) (hb : 32 ≤ T.bits) (x y : Int)
    (hv : valid_input T x y) :
    (∀ f ∈ div_rem_ties_functions, ∃ q r : Int, f T x y = some ⟨q, r⟩ ∧
      (2 * |x.tmod y| > |y| → q = x.tdiv y + Int.sign x * Int.sign y) ∧
      (2 * |x.tmod y| < |y| → q = x.tdiv y ∧ r = x.tmod y)) ∧
    (2 * |x.tmod y| ≠ |y| → ∀ f ∈ div_rem_ties_functions, ∀ g ∈ div_rem_ties_functions,
      f T x y = g T x y) := by
  have hp := ties_off_tie_pairs hb hv
  constructor
  · intro f hf
    rcases lt_trichotomy (2 * |x.tmod y|) |y| with h | h | h
    · refine ⟨x.tdiv y, x.tmod y, ?_, fun h2 => absurd h (not_lt.mpr (le_of_lt h2)),
        fun _ => ⟨rfl, rfl⟩⟩
      rw [(hp f hf).2 h, offset_pair_false hb hv]
    · obtain ⟨inc, -, hf2⟩ := policy_cases hb hv f (ties_functions_subset hf)
      exact ⟨(offset_pair T x y inc).quotient, (offset_pair T x y inc).remainder, hf2,
        fun h2 => absurd h (ne_of_gt h2), fun h2 => absurd h (ne_of_lt h2)⟩
    · have hr : x.tmod y ≠ 0 := by
        intro h0
        rw [h0, abs_zero, mul_zero] at h
        exact absurd h (not_lt.mpr (abs_nonneg y))
      refine ⟨(offset_pair T x y true).quotient, (offset_pair T x y true).remainder,
        (hp f hf).1 h, fun _ => offset_pair_true_quotient hb hv hr,
        fun h2 => absurd h (not_lt.mpr (le_of_lt h2))⟩
  · intro hne f hf g hg
    rcases lt_or_gt_of_ne hne with h | h
    · rw [(hp f hf).2 h, (hp g hg).2 h]
    · rw [(hp f hf).1 h, (hp g hg).1 h]

theorem ties_off_tie_witness :
    (32 ≤ int32.bits ∧ valid_input int32 (-8) 3) ∧
    ((∀ f ∈ div_rem_ties_functions, ∃ q r : Int, f int32 (-8) 3 = some ⟨q, r⟩ ∧
      (2 * |Int.tmod (-8) 3| > |(3 : Int)| →
        q = Int.tdiv (-8) 3 + Int.sign (-8) * Int.sign 3) ∧
      (2 * |Int.tmod (-8) 3| < |(3 : Int)| → q = Int.tdiv (-8) 3 ∧ r = Int.tmod (-8) 3)) ∧
    (2 * |Int.tmod (-8) 3| ≠ |(3 : Int)| →
      ∀ f ∈ div_rem_ties_functions, ∀ g ∈ div_rem_ties_functions,
        f int32 (-8) 3 = g int32 (-8) 3)) :=
  ⟨by decide, ties_off_tie int32 (by decide) (-8) 3 (by decide)⟩


/-- Claim C10. For every integer type at least as wide as int and every exact tie
(a valid input with 2 * |x % y| = |y|), div_rem_ties_to_zero returns the truncating
pair, whose remainder has the sign of x, and div_rem_ties_away_zero returns the
truncating quotient plus sign(x) * sign(y), with, for a signed type, a remainder of
the sign opposite to x.  For signed 32-bit x = 7 and y = 2 the results are (3, 1) and
(4, -1). -/
theorem ties_to_zero_and_away_zero (T : IntType) (hb : 32 ≤ T.bits) (x y : Int)
    (hv : valid_input T x y) (htie : 2 * |x.tmod y| = |y|) :
    (div_rem_ties_to_zero T x y = some ⟨x.tdiv y, x.tmod y⟩ ∧
      Int.sign (x.tmod y) = Int.sign x) ∧
    (∃ r : Int, div_rem_ties_away_zero T x y =
        some ⟨x.tdiv y + Int.sign x * Int.sign y, r⟩ ∧
      (T.is_signed = true → Int.sign r = -Int.sign x ∧ r ≠ 0)) ∧
    div_rem_ties_to_zero int32 7 2 = some ⟨3, 1⟩ ∧
    div_rem_ties_away_zero int32 7 2 = some ⟨4, -1⟩ := by
  obtain ⟨heven, hr0⟩ := tie_even hb hv htie
  have hz := ties_to_zero_decision hb hv
  have ha := ties_threshold_decision hb hv (decide (y.tmod 2 ≠ 0)) (fun h => decide_eq_true h)
  refine ⟨⟨?_, ?_⟩, ?_, by decide, by decide⟩
  · rw [div_rem_ties_to_zero_eq hb hv, decide_eq_false (hz.2 (le_of_eq htie)),
      offset_pair_false hb hv]
  · obtain ⟨q, r, p, eq, er, hp, hid, hH, hc⟩ := valid_cases hb hv
    rw [er] at hr0 ⊢
    apply sign_eq_of
    omega
  · have hinc : x.tmod y * __sgn2 T x ≥
        y.tdiv 2 * __sgn2 T y + of_bool (decide (y.tmod 2 ≠ 0)) :=
      (ha.2.2 htie).mpr (decide_eq_false (not_not.mpr heven))
    refine ⟨(offset_pair T x y true).remainder, ?_, ?_⟩
    · rw [div_rem_ties_away_zero_eq hb hv, decide_eq_true hinc,
        ← offset_pair_true_quotient hb hv hr0]
    · intro hs
      rw [offset_pair_remainder_signed hb hv hs true (fun _ => hr0)]
      obtain ⟨q, r, p, eq, er, hp, hid, hH, hc⟩ := valid_cases hb hv
      rw [er] at hr0 ⊢
      rcases hc with ⟨-, sx, sy, c⟩ | ⟨-, sx, sy, c⟩ | ⟨-, sx, sy, c⟩ | ⟨-, sx, sy, c⟩ |
          ⟨hs2, -⟩
      pick_goal 5
      · rw [hs] at hs2; cases hs2
      all_goals
        simp only [sx, sy, of_bool, if_true]
        rcases sign_cases x with ⟨hx, ex⟩ | ⟨hx, ex⟩ | ⟨hx, ex⟩ <;> rw [ex] <;>
        first
          | omega
          | (refine ⟨?_, by omega⟩
             first
               | (rw [Int.sign_eq_neg_one_of_neg (by omega)])
               | (rw [Int.sign_eq_one_of_pos (by omega)]; rfl))

theorem ties_to_zero_and_away_zero_witness :
    (32 ≤ int32.bits ∧ valid_input int32 7 2 ∧ 2 * |Int.tmod 7 2| = |(2 : Int)|) ∧
    (div_rem_ties_to_zero int32 7 2 = some ⟨Int.tdiv 7 2, Int.tmod 7 2⟩ ∧
      Int.sign (Int.tmod 7 2) = Int.sign 7) ∧
    (∃ r : Int, div_rem_ties_away_zero int32 7 2 =
        some ⟨Int.tdiv 7 2 + Int.sign 7 * Int.sign 2, r⟩ ∧
      (int32.is_signed = true → Int.sign r = -Int.sign 7 ∧ r ≠ 0)) ∧
    div_rem_ties_to_zero int32 7 2 = some ⟨3, 1⟩ ∧
    div_rem_ties_away_zero int32 7 2 = some ⟨4, -1⟩ :=
  ⟨by decide, ties_to_zero_and_away_zero int32 (by decide) 7 2 (by decide) (by decide)⟩

/-! ## Exact ties -/

/-- On an exact tie the comparison of a tie-breaking function with extra condition c
holds exactly when c fails. -/
theorem tie_increment {T : IntType} (hb : 32 ≤ T.bits) {x y : Int} (hv : valid_input T x y)
    (htie : 2 * |x.tmod y| = |y|) (c : Bool) :
    decide (x.tmod y * __sgn2 T x ≥
      y.tdiv 2 * __sgn2 T y + of_bool (decide (y.tmod 2 ≠ 0) || c)) = !c := by
  obtain ⟨heven, -⟩ := tie_even hb hv htie
  have h := (ties_threshold_decision hb hv (decide (y.tmod 2 ≠ 0) || c)
    (fun h => by rw [decide_eq_true h]; rfl)).2.2 htie
  rw [decide_eq_false (not_not.mpr heven), Bool.false_or] at h ⊢
  cases c
  · exact decide_eq_true (h.mpr rfl)
  · exact decide_eq_false (fun hge => absurd (h.mp hge) (by decide))

/-- An offset pair whose step is taken exactly from a nonzero truncating remainder
with operands of equal sign has the ceiling of x / y as quotient. -/
theorem offset_pair_ceil {T : IntType} (hb : 32 ≤ T.bits) {x y : Int}
    (hv : valid_input T x y) (inc : Bool)
    (hinc : inc = true ↔ x.tmod y ≠ 0 ∧ (x < 0 ↔ y < 0)) :
    (offset_pair T x y inc).quotient = ⌈(x : ℚ) / (y : ℚ)⌉ ∧
    (T.is_signed = true → x.tmod y ≠ 0 →
      Int.sign (offset_pair T x y inc).remainder ≠ Int.sign y) ∧
    (T.is_signed = false → x.tmod y ≠ 0 →
      (offset_pair T x y inc).quotient = x.tdiv y + 1) := by
  have hrs := fun hs => offset_pair_remainder_signed hb hv hs inc (fun h => (hinc.mp h).1)
  have hq : (offset_pair T x y inc).quotient =
      x.tdiv y + of_bool inc * (__sgn2 T x * __sgn2 T y) := rfl
  obtain ⟨q, r, p, eq, er, hp, hid, hH, hc⟩ := valid_cases hb hv
  simp only [eq, er] at hinc hrs hq ⊢
  rw [hq]
  refine ⟨?_, ?_, ?_⟩
  · symm
    rcases hc with ⟨-, sx, sy, c⟩ | ⟨-, sx, sy, c⟩ | ⟨-, sx, sy, c⟩ | ⟨-, sx, sy, c⟩ |
        ⟨-, sx, sy, c⟩ <;>
      simp only [sx, sy] <;> cases inc <;>
      simp only [of_bool, if_true, if_false, Bool.false_eq_true, true_iff, false_iff] at hinc ⊢ <;>
      first
        | omega
        | (apply ceil_div_eq x y _ p (by rw [← hp]; ring); omega)
        | (apply ceil_div_eq x y _ (p + y) (by rw [← hp]; ring); omega)
  · intro hs hr
    rw [hrs hs]
    rcases hc with ⟨-, sx, sy, c⟩ | ⟨-, sx, sy, c⟩ | ⟨-, sx, sy, c⟩ | ⟨-, sx, sy, c⟩ |
        ⟨hs2, -⟩
    pick_goal 5
    · rw [hs] at hs2; cases hs2
    all_goals
      simp only [sx, sy]
      cases inc <;>
      simp only [of_bool, if_true, if_false, Bool.false_eq_true, true_iff, false_iff] at hinc ⊢ <;>
      first
        | omega
        | (apply sign_ne_of; omega)
  · intro hs hr
    rcases hc with ⟨hs2, -⟩ | ⟨hs2, -⟩ | ⟨hs2, -⟩ | ⟨hs2, -⟩ | ⟨-, sx, sy, c⟩
    · rw [hs] at hs2; cases hs2
    · rw [hs] at hs2; cases hs2
    · rw [hs] at hs2; cases hs2
    · rw [hs] at hs2; cases hs2
    · simp only [sx, sy]
      cases inc <;>
      simp only [of_bool, if_true, if_false, Bool.false_eq_true, true_iff, false_iff] at hinc ⊢ <;>
      omega

/-- An offset pair whose step is taken exactly from a nonzero truncating remainder
with operands of opposite sign has the floor of x / y as quotient. -/
theorem offset_pair_floor {T : IntType} (hb : 32 ≤ T.bits) {x y : Int}
    (hv : valid_input T x y) (inc : Bool)
    (hinc : inc = true ↔ x.tmod y ≠ 0 ∧ ¬(x < 0 ↔ y < 0)) :
    (offset_pair T x y inc).quotient = ⌊(x : ℚ) / (y : ℚ)⌋ ∧
    (T.is_signed = true → x.tmod y ≠ 0 →
      Int.sign (offset_pair T x y inc).remainder = Int.sign y) ∧
    (T.is_signed = false → (offset_pair T x y inc).remainder < y) := by
  have hrs := fun hs => offset_pair_remainder_signed hb hv hs inc (fun h => (hinc.mp h).1)
  have hru := fun hs => (offset_pair_remainder_unsigned hb hv hs inc).1
  have hq : (offset_pair T x y inc).quotient =
      x.tdiv y + of_bool inc * (__sgn2 T x * __sgn2 T y) := rfl
  obtain ⟨q, r, p, eq, er, hp, hid, hH, hc⟩ := valid_cases hb hv
  simp only [eq, er] at hinc hrs hru hq ⊢
  rw [hq]
  refine ⟨?_, ?_, ?_⟩
  · symm
    rcases hc with ⟨-, sx, sy, c⟩ | ⟨-, sx, sy, c⟩ | ⟨-, sx, sy, c⟩ | ⟨-, sx, sy, c⟩ |
        ⟨-, sx, sy, c⟩ <;>
      simp only [sx, sy] <;> cases inc <;>
      simp only [of_bool, if_true, if_false, Bool.false_eq_true, true_iff, false_iff] at hinc ⊢ <;>
      first
        | omega
        | (apply floor_div_eq x y _ p (by rw [← hp]; ring); omega)
        | (apply floor_div_eq x y _ (p - y) (by rw [← hp]; ring); omega)
  · intro hs hr
    rw [hrs hs]
    rcases hc with ⟨-, sx, sy, c⟩ | ⟨-, sx, sy, c⟩ | ⟨-, sx, sy, c⟩ | ⟨-, sx, sy, c⟩ |
        ⟨hs2, -⟩
    pick_goal 5
    · rw [hs] at hs2; cases hs2
    all_goals
      simp only [sx, sy]
      cases inc <;>
      simp only [of_bool, if_true, if_false, Bool.false_eq_true, true_iff, false_iff] at hinc ⊢ <;>
      first
        | omega
        | (apply sign_eq_of; omega)
  · intro hs
    rw [hru hs]
    rcases hc with ⟨hs2, -⟩ | ⟨hs2, -⟩ | ⟨hs2, -⟩ | ⟨hs2, -⟩ | ⟨-, sx, sy, c⟩
    · rw [hs] at hs2; cases hs2
    · rw [hs] at hs2; cases hs2
    · rw [hs] at hs2; cases hs2
    · rw [hs] at hs2; cases hs2
    · cases inc <;>
      simp only [of_bool, if_true, if_false, Bool.false_eq_true, true_iff, false_iff] at hinc ⊢ <;>
      omega

/-- On an unsigned valid input the sign helper is one and no operand is negative. -/
theorem unsigned_facts {T : IntType} (hb : 32 ≤ T.bits) (hs : T.is_signed = false)
    {x y : Int} (hv : valid_input T x y) :
    __sgn2 T x = 1 ∧ __sgn2 T y = 1 ∧ 0 ≤ x ∧ 0 < y := by
  obtain ⟨-, -, hT⟩ := valid_input_facts hb hv
  rcases hT with ⟨h, -⟩ | ⟨-, h1, -, h3, -⟩
  · rw [hs] at h; cases h
  · exact ⟨by simp [__sgn2, hs], by simp [__sgn2, hs], h1, h3⟩

/-- An unsigned 32-bit valid input, widened, is a valid input of the 64-bit signed
type, on which the sign helper is one. -/
theorem widen_valid {x y : Int} (hv : valid_input uint32 x y) :
    valid_input int64 x y ∧ __sgn2 int64 x = 1 ∧ __sgn2 int64 y = 1 := by
  obtain ⟨hy0, -, hT⟩ := valid_input_facts (le_refl 32 : 32 ≤ uint32.bits) hv
  have hH : uint32.half = 2147483648 := by decide
  have h64 : int64.half = 9223372036854775808 := by decide
  rcases hT with ⟨hs, -⟩ | ⟨-, h1, h2, h3, h4⟩
  · cases hs
  · rw [hH] at h2 h4
    refine ⟨⟨?_, ?_, ?_⟩, ?_, ?_⟩
    · rw [int64.represents_iff (by decide)]
      simp only [int64, if_true]
      rw [show (IntType.mk true 64).half = 9223372036854775808 from h64]
      omega
    · rw [int64.represents_iff (by decide)]
      simp only [int64, if_true]
      rw [show (IntType.mk true 64).half = 9223372036854775808 from h64]
      omega
    · unfold is_div_defined
      rw [if_neg hy0, if_neg]
      simp only [Bool.and_eq_true, decide_eq_true_eq, not_and]
      intro _ _
      omega
    · simp only [__sgn2, int64, if_true]
      rw [if_neg (by omega)]
    · simp only [__sgn2, int64, if_true]
      rw [if_neg (by omega)]

/-! ## The offset helper in general -/

/-- A converted value is congruent to the value modulo two to the width. -/
theorem IntType.convert_emod_modulus (T : IntType) (v : Int) :
    T.convert v % T.modulus = v % T.modulus := by
  unfold IntType.convert
  simp only []
  split
  · rw [Int.sub_emod, Int.emod_self, sub_zero, Int.emod_emod_of_dvd _ (dvd_refl _),
      Int.emod_emod_of_dvd _ (dvd_refl _)]
  · exact Int.emod_emod_of_dvd _ (dvd_refl _)

/-- The offset helper on a valid input, for any step d with a representable
quotient: no operation is undefined, the quotient is exact and the remainder is the
conversion of x % y - d * y. -/
theorem offset_quotient_general {T : IntType} (hb : 32 ≤ T.bits) {x y : Int}
    (hv : valid_input T x y) (d : Int) (hqd : T.represents (x.tdiv y + d)) :
    __div_rem_offset_quotient T x y d =
      some ⟨x.tdiv y + d, T.convert (x.tmod y - d * y)⟩ := by
  obtain ⟨hy0, -, -⟩ := valid_input_facts hb hv
  obtain ⟨hq, hr, -⟩ := valid_represents hb hv
  have hU : T.make_unsigned.promote = T.make_unsigned :=
    T.make_unsigned.promote_eq (by simpa [IntType.make_unsigned] using hb)
  have hUM : T.make_unsigned.modulus = T.modulus := rfl
  have hUs : T.make_unsigned.is_signed = false := rfl
  unfold __div_rem_offset_quotient
  simp only [T.div_eq hb hy0 hq, T.rem_eq hb hy0 hq, T.add_eq hb hqd, Option.bind_eq_bind,
    Option.some_bind, Option.pure_def, T.convert_of_represents hb hqd, hU, IntType.mul,
    IntType.sub, T.make_unsigned.result_unsigned hUs, T.make_unsigned.convert_unsigned hUs,
    hUM]
  rcases hs : T.is_signed with _ | _
  · simp only [Bool.false_eq_true, if_false, T.promote_eq hb, T.result_unsigned hs,
      Option.some_bind, Option.some.injEq, div_result.mk.injEq, true_and]
    apply T.convert_congr
    exact emod_sub_emod _ _ _
  · simp only [if_true, Option.some.injEq, div_result.mk.injEq, true_and]
    apply T.convert_congr
    exact emod_sub_mul_emod _ _ _ _

/-! ## Types narrower than int -/

theorem int32_represents_iff (v : Int) :
    int32.represents v ↔ -2147483648 ≤ v ∧ v ≤ 2147483647 := by
  have h : int32.half = 2147483648 := by decide
  unfold IntType.represents IntType.min_value IntType.max_value
  rw [h]
  simp only [int32, if_true]
  omega

theorem int32_result {v : Int} (h1 : -2147483648 ≤ v) (h2 : v ≤ 2147483647) :
    int32.result v = some v := by
  unfold IntType.result
  rw [if_pos (show int32.is_signed = true from rfl),
    if_pos ((int32_represents_iff v).mpr ⟨h1, h2⟩)]

/-- The shape of a type of at most 16 bits: it is promoted to int, and so is its
unsigned counterpart. -/
theorem narrow_shape (T : IntType) (h1 : 1 ≤ T.bits) (h2 : T.bits ≤ 16) :
    T.promote = int32 ∧ T.make_unsigned.promote = int32 ∧ T.modulus = 2 * T.half ∧
    1 ≤ T.half ∧ T.half ≤ 32768 ∧ (T.bits ≤ 15 → T.half ≤ 16384) := by
  refine ⟨?_, ?_, ?_, ?_, ?_, ?_⟩
  · unfold IntType.promote
    rw [if_pos (by omega)]
  · unfold IntType.promote IntType.make_unsigned
    rw [if_pos (by simp only; omega)]
  · unfold IntType.modulus IntType.half
    have h : T.bits = (T.bits - 1) + 1 := by omega
    conv_lhs => rw [h]
    push_cast
    ring
  · unfold IntType.half
    have h : 1 ≤ 2 ^ (T.bits - 1) := Nat.one_le_two_pow
    exact_mod_cast h
  · unfold IntType.half
    have h : 2 ^ (T.bits - 1) ≤ 2 ^ 15 := Nat.pow_le_pow_right (by norm_num) (by omega)
    have h3 : ((2 ^ (T.bits - 1) : Nat) : Int) ≤ ((2 ^ 15 : Nat) : Int) := by exact_mod_cast h
    simpa using h3
  · intro h15
    unfold IntType.half
    have h : 2 ^ (T.bits - 1) ≤ 2 ^ 14 := Nat.pow_le_pow_right (by norm_num) (by omega)
    have h3 : ((2 ^ (T.bits - 1) : Nat) : Int) ≤ ((2 ^ 14 : Nat) : Int) := by exact_mod_cast h
    simpa using h3

/-- A value of a type whose modulus is twice its half is unchanged by the conversion
to the type. -/
theorem IntType.convert_of_represents_pos (T : IntType) {v : Int}
    (hM : T.modulus = 2 * T.half) (hH : 1 ≤ T.half) (h : T.represents v) :
    T.convert v = v := by
  unfold IntType.represents IntType.min_value IntType.max_value at h
  unfold IntType.convert
  rcases hs : T.is_signed with _ | _
  · simp [hs] at h ⊢
    exact Int.emod_eq_of_lt h.1 (by omega)
  · simp [hs] at h ⊢
    rcases le_or_lt 0 v with hv | hv
    · have e : v % T.modulus = v := Int.emod_eq_of_lt hv (by omega)
      rw [e, if_neg (by omega)]
    · have e : v % T.modulus = v + T.modulus := by
        rw [← Int.add_emod_self]
        exact Int.emod_eq_of_lt (by omega) (by omega)
      rw [e, if_pos (by omega)]
      omega

theorem unit_mul_cases (d y : Int) (hd : -1 ≤ d ∧ d ≤ 1) :
    d * y = -y ∨ d * y = 0 ∨ d * y = y := by
  have h : d = -1 ∨ d = 0 ∨ d = 1 := by omega
  rcases h with h | h | h <;> subst h <;> simp

theorem narrow_mul_bound (a b M : Int) (ha : 0 ≤ a) (ha2 : a < M) (hb : 0 ≤ b) (hb2 : b < M)
    (hM : M ≤ 32768) : 0 ≤ a * b ∧ a * b ≤ 1073676289 := by
  refine ⟨mul_nonneg ha hb, ?_⟩
  have h : a * b ≤ 32767 * 32767 := mul_le_mul (by omega) (by omega) hb (by omega)
  omega

/-- The offset helper on a valid input of a narrow type: a signed type of at most 15
bits with a step d in {-1, 0, 1}, or an unsigned type of at most 16 bits with a step d
in {0, 1}.  Every operation is evaluated in int without overflow. -/
theorem offset_quotient_narrow {T : IntType} (h1 : 1 ≤ T.bits)
    (h2 : T.bits ≤ 15 ∨ (T.is_signed = false ∧ T.bits ≤ 16)) {x y : Int}
    (hv : valid_input T x y) (d : Int) (hd : -1 ≤ d ∧ d ≤ 1)
    (hu : T.is_signed = false → 0 ≤ d)
    (hqd : T.represents (x.tdiv y + d)) :
    ∃ r : Int, __div_rem_offset_quotient T x y d = some ⟨x.tdiv y + d, r⟩ ∧
      r % T.modulus = (x.tmod y - d * y) % T.modulus ∧
      (T.represents (x.tmod y - d * y) → r = x.tmod y - d * y) := by
  have h16 : T.bits ≤ 16 := by rcases h2 with h | h <;> omega
  obtain ⟨hP, hUP, hM, hH1, hH2, hH3⟩ := narrow_shape T h1 h16
  obtain ⟨hx, hy, hdef⟩ := hv
  have hy0 : y ≠ 0 := by
    intro h0
    rw [h0] at hdef
    simp [is_div_defined] at hdef
  obtain ⟨q, r, p, eq, er, hp, hid, hc⟩ := tdiv_tmod_cases x y hy0
  unfold IntType.represents IntType.min_value IntType.max_value at hx hy
  have hUs : T.make_unsigned.is_signed = false := rfl
  have hUM : T.make_unsigned.modulus = T.modulus := rfl
  have hMpos : 0 < T.modulus := by omega
  have hdm := Int.emod_nonneg d (show T.modulus ≠ 0 by omega)
  have hdm2 := Int.emod_lt_of_pos d hMpos
  have hym := Int.emod_nonneg y (show T.modulus ≠ 0 by omega)
  have hym2 := Int.emod_lt_of_pos y hMpos
  have hrm := Int.emod_nonneg r (show T.modulus ≠ 0 by omega)
  have hrm2 := Int.emod_lt_of_pos r hMpos
  rw [eq] at hqd
  rw [eq, er]
  unfold __div_rem_offset_quotient
  rcases hs : T.is_signed with _ | _
  · simp only [hs, Bool.false_eq_true, if_false] at hx hy ⊢
    have e1 : int32.div x y = some q := by
      unfold IntType.div
      rw [if_neg hy0, eq]
      exact int32_result (by omega) (by omega)
    have e2 : int32.rem x y = some r := by
      unfold IntType.rem
      rw [if_neg hy0, eq, if_pos ((int32_represents_iff q).mpr (by omega)), er]
    have e3 : int32.add q d = some (q + d) := int32_result (by omega) (by omega)
    have hd0 : 0 ≤ d := hu hs
    have hdy : d * y = 0 ∨ d * y = y := by
      have h : d = 0 ∨ d = 1 := by omega
      rcases h with h | h <;> subst h <;> simp
    have e4 : int32.mul d y = some (d * y) := by
      apply int32_result <;> omega
    have e5 : int32.sub r (d * y) = some (r - d * y) := by
      apply int32_result <;> omega
    simp only [hP, e1, e2, e3, e4, e5, Option.bind_eq_bind, Option.some_bind, Option.pure_def,
      T.convert_of_represents_pos hM hH1 hqd, Option.some.injEq, div_result.mk.injEq, true_and,
      exists_eq_left']
    exact ⟨T.convert_emod_modulus _, fun h => T.convert_of_represents_pos hM hH1 h⟩
  · have h15 : T.bits ≤ 15 := by
      rcases h2 with h | ⟨h, -⟩
      · exact h
      · rw [hs] at h; cases h
    have hH4 := hH3 h15
    simp only [hs, if_true] at hx hy ⊢
    have e1 : int32.div x y = some q := by
      unfold IntType.div
      rw [if_neg hy0, eq]
      exact int32_result (by omega) (by omega)
    have e2 : int32.rem x y = some r := by
      unfold IntType.rem
      rw [if_neg hy0, eq, if_pos ((int32_represents_iff q).mpr (by omega)), er]
    have e3 : int32.add q d = some (q + d) := int32_result (by omega) (by omega)
    have hmb := narrow_mul_bound _ _ _ hdm hdm2 hym hym2 (by omega)
    have e4 : int32.mul (d % T.modulus) (y % T.modulus) =
        some (d % T.modulus * (y % T.modulus)) := by
      apply int32_result <;> omega
    have e5 : int32.sub (r % T.modulus) (d % T.modulus * (y % T.modulus)) =
        some (r % T.modulus - d % T.modulus * (y % T.modulus)) := by
      apply int32_result <;> omega
    have hcg : (r % T.modulus - d % T.modulus * (y % T.modulus)) % T.modulus =
        (r - d * y) % T.modulus :=
      (Int.mod_modEq r _).sub ((Int.mod_modEq d _).mul (Int.mod_modEq y _))
    simp only [hP, hUP, e1, e2, e3, e4, e5, Option.bind_eq_bind, Option.some_bind,
      Option.pure_def, T.make_unsigned.convert_unsigned hUs, hUM,
      T.convert_of_represents_pos hM hH1 hqd, Option.some.injEq, div_result.mk.injEq,
      true_and, exists_eq_left', T.convert_congr hcg]
    exact ⟨T.convert_emod_modulus _, fun h => T.convert_of_represents_pos hM hH1 h⟩

/-! ## Monotonicity in the dividend -/

/-- Two multiples of a positive y are a step of y apart unless the factors agree. -/
theorem mul_trichotomy (y a b : Int) (hy : 0 < y) :
    (a < b ∧ y * a + y ≤ y * b) ∨ a = b ∨ (b < a ∧ y * b + y ≤ y * a) := by
  rcases lt_trichotomy a b with h | h | h
  · left
    exact ⟨h, by nlinarith⟩
  · exact Or.inr (Or.inl h)
  · right; right
    exact ⟨h, by nlinarith⟩

/-- Dividends in order, with steps taken only from nonzero remainders and, between
dividends of equal truncating quotient, kept from the smaller positive dividend to the
larger and from the larger negative dividend to the smaller, have offset quotients in
order. -/
theorem offset_quotient_mono {T : IntType} (hb : 32 ≤ T.bits) {x1 x2 y : Int}
    (hv1 : valid_input T x1 y) (hv2 : valid_input T x2 y) (hy : 0 < y) (hx : x1 ≤ x2)
    (inc1 inc2 : Bool)
    (h1 : inc1 = true → x1.tmod y ≠ 0) (h2 : inc2 = true → x2.tmod y ≠ 0)
    (hK1 : x1.tdiv y = x2.tdiv y → 0 < x1 → inc1 = true → inc2 = true)
    (hK2 : x1.tdiv y = x2.tdiv y → x2 < 0 → inc2 = true → inc1 = true) :
    (offset_pair T x1 y inc1).quotient ≤ (offset_pair T x2 y inc2).quotient := by
  obtain ⟨q1, r1, p1, eq1, er1, hp1, hid1, -, hc1⟩ := valid_cases hb hv1
  obtain ⟨q2, r2, p2, eq2, er2, hp2, hid2, -, hc2⟩ := valid_cases hb hv2
  have ht := mul_trichotomy y q1 q2 hy
  rw [hp1, hp2] at ht
  have hpe : q1 = q2 → p1 = p2 := fun h => by rw [← hp1, ← hp2, h]
  simp only [offset_pair, eq1, eq2, er1, er2] at h1 h2 hK1 hK2 ⊢
  rcases hs : T.is_signed with _ | _
  · simp only [hs, Bool.false_eq_true, false_and, or_false, false_or, true_and] at hc1 hc2
    obtain ⟨sx1, sy1, c1⟩ := hc1
    obtain ⟨sx2, sy2, c2⟩ := hc2
    simp only [sx1, sx2, sy1]
    cases inc1 <;> cases inc2 <;>
      simp only [of_bool, if_true, if_false, Bool.false_eq_true, true_implies, false_implies,
        imp_false, implies_true, not_true_eq_false, ne_eq] at h1 h2 hK1 hK2 ⊢ <;>
      omega
  · simp only [hs, Bool.true_eq_false, false_and, or_false, true_and] at hc1 hc2
    rcases hc1 with ⟨sx1, sy1, c1⟩ | ⟨sx1, sy1, c1⟩ | ⟨sx1, sy1, c1⟩ | ⟨sx1, sy1, c1⟩ <;>
    rcases hc2 with ⟨sx2, sy2, c2⟩ | ⟨sx2, sy2, c2⟩ | ⟨sx2, sy2, c2⟩ | ⟨sx2, sy2, c2⟩ <;>
    simp only [sx1, sx2, sy1] <;>
    cases inc1 <;> cases inc2 <;>
      simp only [of_bool, if_true, if_false, Bool.false_eq_true, true_implies, false_implies,
        imp_false, implies_true, not_true_eq_false, ne_eq] at h1 h2 hK1 hK2 ⊢ <;>
      omega

/-- The step of the offset pair a policy returns is taken only from a nonzero
truncating remainder. -/
theorem increment_nonzero {T : IntType} (hb : 32 ≤ T.bits) {x y : Int}
    (hv : valid_input T x y) {f : IntType → Int → Int → Option div_result}
    (hf : f ∈ div_rem_functions) {inc : Bool} (he : f T x y = some (offset_pair T x y inc)) :
    inc = true → x.tmod y ≠ 0 := by
  obtain ⟨inc2, hnz, he2⟩ := policy_cases hb hv f hf
  rw [he] at he2
  have hq : (offset_pair T x y inc).quotient = (offset_pair T x y inc2).quotient := by
    rw [Option.some.inj he2]
  simp only [offset_pair] at hq
  obtain ⟨q, r, p, eq, er, hp, hid, hH, hc⟩ := valid_cases hb hv
  intro hi
  apply hnz
  subst hi
  cases inc2
  · exfalso
    rcases hc with ⟨-, sx, sy, c⟩ | ⟨-, sx, sy, c⟩ | ⟨-, sx, sy, c⟩ | ⟨-, sx, sy, c⟩ |
        ⟨-, sx, sy, c⟩ <;>
      simp only [sx, sy, of_bool, if_true, if_false, Bool.false_eq_true] at hq <;> omega
  · rfl

/-- Between two dividends of equal truncating quotient by a positive divisor the
remainders are in order and the operands have the same sign. -/
theorem same_quotient_facts {T : IntType} (hb : 32 ≤ T.bits) {x1 x2 y : Int}
    (hv1 : valid_input T x1 y) (hv2 : valid_input T x2 y) (hy : 0 < y) (hx : x1 ≤ x2)
    (hq : x1.tdiv y = x2.tdiv y) :
    x1.tmod y ≤ x2.tmod y ∧
    (0 < x1 → __sgn2 T x1 = 1 ∧ __sgn2 T x2 = 1 ∧ 0 ≤ x1.tmod y) ∧
    (x2 < 0 → __sgn2 T x1 = -1 ∧ __sgn2 T x2 = -1 ∧ x2.tmod y ≤ 0) := by
  obtain ⟨q1, r1, p1, eq1, er1, hp1, hid1, -, hc1⟩ := valid_cases hb hv1
  obtain ⟨q2, r2, p2, eq2, er2, hp2, hid2, -, hc2⟩ := valid_cases hb hv2
  rw [eq1, eq2] at hq
  subst hq
  rw [hp1] at hp2
  subst hp2
  rw [er1, er2]
  rcases hc1 with ⟨-, sx1, sy1, c1⟩ | ⟨-, sx1, sy1, c1⟩ | ⟨-, sx1, sy1, c1⟩ |
      ⟨-, sx1, sy1, c1⟩ | ⟨-, sx1, sy1, c1⟩ <;>
    rcases hc2 with ⟨-, sx2, sy2, c2⟩ | ⟨-, sx2, sy2, c2⟩ | ⟨-, sx2, sy2, c2⟩ |
      ⟨-, sx2, sy2, c2⟩ | ⟨-, sx2, sy2, c2⟩ <;>
    rw [sx1, sx2] <;>
    refine ⟨by omega, fun h => ⟨by omega, by omega, by omega⟩,
      fun h => ⟨by omega, by omega, by omega⟩⟩

/-! ## The claims on ties, modulo, widths and monotonicity -/

/-- Claim C11. For every integer type at least as wide as int and every exact tie
(a valid input with 2 * |x % y| = |y|), div_rem_ties_to_pos_inf returns the ceiling of
x / y as quotient (signed: the sign of the remainder differs from the sign of y;
unsigned: the quotient is x / y + 1) and div_rem_ties_to_neg_inf returns the floor of
x / y as quotient (signed: the remainder has the sign of y; unsigned: the remainder is
below y). -/
theorem ties_to_pos_inf_and_neg_inf (T : IntType) (hb : 32 ≤ T.bits) (x y : Int)
    (hv : valid_input T x y) (htie : 2 * |x.tmod y| = |y|) :
    (∃ q r : Int, div_rem_ties_to_pos_inf T x y = some ⟨q, r⟩ ∧
      q = ⌈(x : ℚ) / (y : ℚ)⌉ ∧
      (T.is_signed = true → Int.sign r ≠ Int.sign y) ∧
      (T.is_signed = false → q = x.tdiv y + 1)) ∧
    (∃ q r : Int, div_rem_ties_to_neg_inf T x y = some ⟨q, r⟩ ∧
      q = ⌊(x : ℚ) / (y : ℚ)⌋ ∧
      (T.is_signed = true → Int.sign r = Int.sign y) ∧
      (T.is_signed = false → r < y)) := by
  obtain ⟨-, hr0⟩ := tie_even hb hv htie
  have hpos := div_rem_ties_to_pos_inf_eq hb hv
  have hneg := div_rem_ties_to_neg_inf_eq hb hv
  rw [tie_increment hb hv htie] at hpos hneg
  have hsign : (__sgn2 T x * __sgn2 T y < 0 ↔ ¬(x < 0 ↔ y < 0)) ∧
      (__sgn2 T x * __sgn2 T y > 0 ↔ (x < 0 ↔ y < 0)) := by
    obtain ⟨q, r, p, eq, er, hp, hid, hH, hc⟩ := valid_cases hb hv
    rw [er] at hr0
    rcases hc with ⟨-, sx, sy, c⟩ | ⟨-, sx, sy, c⟩ | ⟨-, sx, sy, c⟩ | ⟨-, sx, sy, c⟩ |
        ⟨-, sx, sy, c⟩ <;>
      rw [sx, sy] <;> constructor <;> omega
  have h1 : (!decide (__sgn2 T x * __sgn2 T y < 0)) = true ↔
      x.tmod y ≠ 0 ∧ (x < 0 ↔ y < 0) := by
    rw [Bool.not_eq_true', decide_eq_false_iff_not, hsign.1, not_not]
    exact ⟨fun h => ⟨hr0, h⟩, fun h => h.2⟩
  have h2 : (!decide (__sgn2 T x * __sgn2 T y > 0)) = true ↔
      x.tmod y ≠ 0 ∧ ¬(x < 0 ↔ y < 0) := by
    rw [Bool.not_eq_true', decide_eq_false_iff_not, hsign.2]
    exact ⟨fun h => ⟨hr0, h⟩, fun h => h.2⟩
  obtain ⟨c1, c2, c3⟩ := offset_pair_ceil hb hv _ h1
  obtain ⟨f1, f2, f3⟩ := offset_pair_floor hb hv _ h2
  exact ⟨⟨(offset_pair T x y _).quotient, (offset_pair T x y _).remainder, hpos, c1,
      fun hs => c2 hs hr0, fun hs => c3 hs hr0⟩,
    ⟨(offset_pair T x y _).quotient, (offset_pair T x y _).remainder, hneg, f1,
      fun hs => f2 hs hr0, f3⟩⟩

theorem ties_to_pos_inf_and_neg_inf_witness :
    (32 ≤ int32.bits ∧ valid_input int32 (-7) 2 ∧ 2 * |Int.tmod (-7) 2| = |(2 : Int)|) ∧
    (∃ q r : Int, div_rem_ties_to_pos_inf int32 (-7) 2 = some ⟨q, r⟩ ∧
      q = ⌈((-7 : Int) : ℚ) / ((2 : Int) : ℚ)⌉ ∧
      (int32.is_signed = true → Int.sign r ≠ Int.sign 2) ∧
      (int32.is_signed = false → q = Int.tdiv (-7) 2 + 1)) ∧
    (∃ q r : Int, div_rem_ties_to_neg_inf int32 (-7) 2 = some ⟨q, r⟩ ∧
      q = ⌊((-7 : Int) : ℚ) / ((2 : Int) : ℚ)⌋ ∧
      (int32.is_signed = true → Int.sign r = Int.sign 2) ∧
      (int32.is_signed = false → r < 2)) :=
  ⟨by decide,
    ties_to_pos_inf_and_neg_inf int32 (by decide) (-7) 2 (by decide) (by decide)⟩

/-- Claim C12. For every integer type at least as wide as int, signed or unsigned, and
every exact tie (a valid input with 2 * |x % y| = |y|), div_rem_ties_to_odd returns an
odd quotient and div_rem_ties_to_even an even quotient: the truncating quotient when
its parity already matches, and the truncating quotient plus sign(x) * sign(y)
otherwise.  For signed 32-bit x = 7 and y = 2 the results are (4, -1) for
ties_to_even and (3, 1) for ties_to_odd. -/
theorem ties_to_odd_and_even (T : IntType) (hb : 32 ≤ T.bits) (x y : Int)
    (hv : valid_input T x y) (htie : 2 * |x.tmod y| = |y|) :
    (∃ q r : Int, div_rem_ties_to_odd T x y = some ⟨q, r⟩ ∧ Odd q ∧
      (Odd (x.tdiv y) → q = x.tdiv y) ∧
      (¬Odd (x.tdiv y) → q = x.tdiv y + Int.sign x * Int.sign y)) ∧
    (∃ q r : Int, div_rem_ties_to_even T x y = some ⟨q, r⟩ ∧ Even q ∧
      (Even (x.tdiv y) → q = x.tdiv y) ∧
      (¬Even (x.tdiv y) → q = x.tdiv y + Int.sign x * Int.sign y)) ∧
    div_rem_ties_to_even int32 7 2 = some ⟨4, -1⟩ ∧
    div_rem_ties_to_odd int32 7 2 = some ⟨3, 1⟩ := by
  obtain ⟨-, hr0⟩ := tie_even hb hv htie
  have hodd := div_rem_ties_to_odd_eq hb hv
  have heven := div_rem_ties_to_even_eq hb hv
  rw [tie_increment hb hv htie] at hodd heven
  obtain ⟨hsx, hsy⟩ := sgn2_eq_sign hb hv
  have hx0 := dividend_ne_zero hr0
  have hm := tmod_two (x.tdiv y)
  have hq : ∀ inc, (offset_pair T x y inc).quotient =
      x.tdiv y + of_bool inc * (Int.sign x * Int.sign y) := by
    intro inc
    simp only [offset_pair, hsx hx0, hsy]
  have hss : Int.sign x * Int.sign y = 1 ∨ Int.sign x * Int.sign y = -1 := by
    obtain ⟨hy0, -, -⟩ := valid_input_facts hb hv
    rcases sign_cases x with ⟨hx, ex⟩ | ⟨hx, ex⟩ | ⟨hx, ex⟩ <;>
      rcases sign_cases y with ⟨hy, ey⟩ | ⟨hy, ey⟩ | ⟨hy, ey⟩ <;>
      rw [ex, ey] <;> omega
  refine ⟨⟨(offset_pair T x y _).quotient, (offset_pair T x y _).remainder, hodd, ?_⟩,
    ⟨(offset_pair T x y _).quotient, (offset_pair T x y _).remainder, heven, ?_⟩,
    by decide, by decide⟩
  · rw [hq]
    generalize Int.sign x * Int.sign y = s at hss ⊢
    generalize x.tdiv y = q at hm ⊢
    simp only [Int.odd_iff]
    by_cases h : q.tmod 2 ≠ 0
    · rw [decide_eq_true h]
      simp only [Bool.not_true, of_bool, Bool.false_eq_true, if_false, zero_mul, add_zero]
      refine ⟨?_, fun h1 => ?_, fun h1 => ?_⟩ <;> split at hm <;> first | trivial | omega
    · rw [decide_eq_false h]
      simp only [Bool.not_false, of_bool, if_true, one_mul]
      rw [not_not] at h
      rw [h] at hm
      refine ⟨?_, fun h1 => ?_, fun h1 => ?_⟩ <;> split at hm <;> first | trivial | omega
  · rw [hq]
    generalize Int.sign x * Int.sign y = s at hss ⊢
    generalize x.tdiv y = q at hm ⊢
    simp only [Int.even_iff]
    by_cases h : q.tmod 2 = 0
    · rw [decide_eq_true h]
      rw [h] at hm
      simp only [Bool.not_true, of_bool, Bool.false_eq_true, if_false, zero_mul, add_zero]
      refine ⟨?_, fun h1 => ?_, fun h1 => ?_⟩ <;> split at hm <;> first | trivial | omega
    · rw [decide_eq_false h]
      simp only [Bool.not_false, of_bool, if_true, one_mul]
      refine ⟨?_, fun h1 => ?_, fun h1 => ?_⟩ <;> split at hm <;> first | trivial | omega

theorem ties_to_odd_and_even_witness :
    (32 ≤ int32.bits ∧ valid_input int32 7 2 ∧ 2 * |Int.tmod 7 2| = |(2 : Int)|) ∧
    (∃ q r : Int, div_rem_ties_to_odd int32 7 2 = some ⟨q, r⟩ ∧ Odd q ∧
      (Odd (Int.tdiv 7 2) → q = Int.tdiv 7 2) ∧
      (¬Odd (Int.tdiv 7 2) → q = Int.tdiv 7 2 + Int.sign 7 * Int.sign 2)) ∧
    (∃ q r : Int, div_rem_ties_to_even int32 7 2 = some ⟨q, r⟩ ∧ Even q ∧
      (Even (Int.tdiv 7 2) → q = Int.tdiv 7 2) ∧
      (¬Even (Int.tdiv 7 2) → q = Int.tdiv 7 2 + Int.sign 7 * Int.sign 2)) ∧
    div_rem_ties_to_even int32 7 2 = some ⟨4, -1⟩ ∧
    div_rem_ties_to_odd int32 7 2 = some ⟨3, 1⟩ :=
  ⟨by decide, ties_to_odd_and_even int32 (by decide) 7 2 (by decide) (by decide)⟩

/-- Claim C13. For every integer type at least as wide as int, signed or unsigned,
and every valid input, mod returns the remainder of div_rem_to_neg_inf. -/
theorem mod_agrees_with_to_neg_inf (T : IntType) (hb : 32 ≤ T.bits) (x y : Int)
    (hv : valid_input T x y) :
    ∃ m : Int, mod T x y = some m ∧
      (div_rem_to_neg_inf T x y).map div_result.remainder = some m := by
  refine ⟨_, mod_eq hb hv, ?_⟩
  rw [div_rem_to_neg_inf_eq hb hv]
  rfl

theorem mod_agrees_with_to_neg_inf_witness :
    (32 ≤ int32.bits ∧ valid_input int32 1 (-3)) ∧
    ∃ m : Int, mod int32 1 (-3) = some m ∧
      (div_rem_to_neg_inf int32 1 (-3)).map div_result.remainder = some m :=
  ⟨by decide, mod_agrees_with_to_neg_inf int32 (by decide) 1 (-3) (by decide)⟩

/-- Claim C19. For every unsigned type at least as wide as int and every valid input
(a nonzero divisor), the directional policies collapse pairwise to the same pair:
to_neg_inf with to_zero, to_pos_inf with away_zero, ties_to_neg_inf with ties_to_zero
and ties_to_pos_inf with ties_away_zero. -/
theorem unsigned_policies_collapse (T : IntType) (hb : 32 ≤ T.bits)
    (hs : T.is_signed = false) (x y : Int) (hv : valid_input T x y) :
    (∃ a : div_result, div_rem_to_neg_inf T x y = some a ∧ div_rem_to_zero T x y = some a) ∧
    (∃ a : div_result, div_rem_to_pos_inf T x y = some a ∧
      div_rem_away_zero T x y = some a) ∧
    (∃ a : div_result, div_rem_ties_to_neg_inf T x y = some a ∧
      div_rem_ties_to_zero T x y = some a) ∧
    (∃ a : div_result, div_rem_ties_to_pos_inf T x y = some a ∧
      div_rem_ties_away_zero T x y = some a) := by
  obtain ⟨sx, sy, hx, hy⟩ := unsigned_facts hb hs hv
  have hxor : 0 ≤ Int.xor x y := (xor_nonneg_iff x y).mpr (by omega)
  refine ⟨⟨_, div_rem_to_neg_inf_eq hb hv, ?_⟩, ⟨_, div_rem_to_pos_inf_eq hb hv, ?_⟩,
    ⟨_, div_rem_ties_to_neg_inf_eq hb hv, ?_⟩, ⟨_, div_rem_ties_to_pos_inf_eq hb hv, ?_⟩⟩
  · rw [div_rem_to_zero_eq hb hv, decide_eq_false (not_lt.mpr hxor), Bool.and_false]
  · rw [div_rem_away_zero_eq hb hv, decide_eq_true (ge_iff_le.mpr hxor), Bool.and_true]
  · rw [div_rem_ties_to_zero_eq hb hv, sx, sy]
    have e : decide ((1 : Int) * 1 > 0) = true := by decide
    rw [e, Bool.or_true]
    have e2 : (x.tmod y * 1 ≥ y.tdiv 2 * 1 + of_bool true) ↔ (x.tmod y * 1 > y.tdiv 2 * 1) := by
      simp only [of_bool, if_true]
      omega
    rw [decide_eq_decide.mpr e2]
  · rw [div_rem_ties_away_zero_eq hb hv, sx, sy]
    have e : decide ((1 : Int) * 1 < 0) = false := by decide
    rw [e, Bool.or_false]

theorem unsigned_policies_collapse_witness :
    (32 ≤ uint32.bits ∧ uint32.is_signed = false ∧ valid_input uint32 7 2) ∧
    (∃ a : div_result, div_rem_to_neg_inf uint32 7 2 = some a ∧
      div_rem_to_zero uint32 7 2 = some a) ∧
    (∃ a : div_result, div_rem_to_pos_inf uint32 7 2 = some a ∧
      div_rem_away_zero uint32 7 2 = some a) ∧
    (∃ a : div_result, div_rem_ties_to_neg_inf uint32 7 2 = some a ∧
      div_rem_ties_to_zero uint32 7 2 = some a) ∧
    (∃ a : div_result, div_rem_ties_to_pos_inf uint32 7 2 = some a ∧
      div_rem_ties_away_zero uint32 7 2 = some a) :=
  ⟨by decide, unsigned_policies_collapse uint32 (by decide) (by decide) 7 2 (by decide)⟩

/-- Claim C14. For all unsigned 32-bit x and nonzero y, the quotients that
div_rem_away_zero, div_rem_to_pos_inf and div_rem_ties_to_zero compute in unsigned
32-bit arithmetic equal, as integers, the quotients that div_away_zero, div_to_pos_inf
and div_ties_to_zero return on the operands widened to signed 64-bit; on an exact tie
the unsigned quotients of div_rem_ties_away_zero and div_rem_ties_to_pos_inf equal the
signed 64-bit quotient of div_away_zero. -/
theorem quotient_independent_of_type (x y : Int) (hv : valid_input uint32 x y) :
    (∃ q : Int, (div_rem_away_zero uint32 x y).map div_result.quotient = some q ∧
      div_away_zero int64 x y = some q) ∧
    (∃ q : Int, (div_rem_to_pos_inf uint32 x y).map div_result.quotient = some q ∧
      div_to_pos_inf int64 x y = some q) ∧
    (∃ q : Int, (div_rem_ties_to_zero uint32 x y).map div_result.quotient = some q ∧
      div_ties_to_zero int64 x y = some q) ∧
    (2 * |x.tmod y| = |y| → ∃ q : Int,
      (div_rem_ties_away_zero uint32 x y).map div_result.quotient = some q ∧
      (div_rem_ties_to_pos_inf uint32 x y).map div_result.quotient = some q ∧
      div_away_zero int64 x y = some q) := by
  have hb : 32 ≤ uint32.bits := le_refl 32
  have hb64 : 32 ≤ int64.bits := by decide
  obtain ⟨hv64, tx, ty⟩ := widen_valid hv
  obtain ⟨sx, sy, -, -⟩ := unsigned_facts hb rfl hv
  have hq32 : ∀ inc, (offset_pair uint32 x y inc).quotient = x.tdiv y + of_bool inc := by
    intro inc
    simp only [offset_pair, sx, sy, mul_one]
  have hq64 : ∀ inc, (offset_pair int64 x y inc).quotient = x.tdiv y + of_bool inc := by
    intro inc
    simp only [offset_pair, tx, ty, mul_one]
  refine ⟨⟨x.tdiv y + of_bool (decide (x.tmod y ≠ 0)), ?_, ?_⟩,
    ⟨x.tdiv y + of_bool (decide (x.tmod y ≠ 0) && decide (Int.xor x y ≥ 0)), ?_, ?_⟩,
    ⟨x.tdiv y + of_bool (decide (x.tmod y * 1 > y.tdiv 2 * 1)), ?_, ?_⟩,
    fun htie => ⟨x.tdiv y + 1, ?_, ?_, ?_⟩⟩
  · rw [div_rem_away_zero_eq hb hv, Option.map_some', hq32]
  · rw [div_away_zero, div_rem_away_zero_eq hb64 hv64, Option.map_some', hq64]
  · rw [div_rem_to_pos_inf_eq hb hv, Option.map_some', hq32]
  · rw [div_to_pos_inf, div_rem_to_pos_inf_eq hb64 hv64, Option.map_some', hq64]
  · rw [div_rem_ties_to_zero_eq hb hv, Option.map_some', hq32, sx, sy]
  · rw [div_ties_to_zero, div_rem_ties_to_zero_eq hb64 hv64, Option.map_some', hq64, tx, ty]
  · have h := tie_increment hb hv htie false
    rw [Bool.or_false] at h
    rw [div_rem_ties_away_zero_eq hb hv, h, Option.map_some', hq32]
    rfl
  · rw [div_rem_ties_to_pos_inf_eq hb hv, tie_increment hb hv htie, Option.map_some', hq32,
      sx, sy]
    rfl
  · obtain ⟨-, hr0⟩ := tie_even hb hv htie
    rw [div_away_zero, div_rem_away_zero_eq hb64 hv64, Option.map_some', hq64,
      decide_eq_true hr0]
    rfl

theorem quotient_independent_of_type_witness :
    valid_input uint32 4294967295 2 ∧
    (∃ q : Int, (div_rem_away_zero uint32 4294967295 2).map div_result.quotient = some q ∧
      div_away_zero int64 4294967295 2 = some q) ∧
    (∃ q : Int, (div_rem_to_pos_inf uint32 4294967295 2).map div_result.quotient = some q ∧
      div_to_pos_inf int64 4294967295 2 = some q) ∧
    (∃ q : Int, (div_rem_ties_to_zero uint32 4294967295 2).map div_result.quotient = some q ∧
      div_ties_to_zero int64 4294967295 2 = some q) ∧
    (2 * |Int.tmod 4294967295 2| = |(2 : Int)| → ∃ q : Int,
      (div_rem_ties_away_zero uint32 4294967295 2).map div_result.quotient = some q ∧
      (div_rem_ties_to_pos_inf uint32 4294967295 2).map div_result.quotient = some q ∧
      div_away_zero int64 4294967295 2 = some q) :=
  ⟨by decide, quotient_independent_of_type 4294967295 2 (by decide)⟩

/-- Claim C15, counterexample. At x = 1 and y = 3 abs_rem equals abs_half_y and the
divisor is odd, yet div_rem_ties_away_zero does not increment: it returns the
truncating pair (0, 1) and not the quotient 0 + sign(x) * sign(y) = 1. -/
theorem odd_divisor_round_away_counterexample :
    valid_input int32 1 3 ∧
    Int.tmod 1 3 * __sgn2 int32 1 = Int.tdiv 3 2 * __sgn2 int32 3 ∧ Int.tmod 3 2 ≠ 0 ∧
    div_rem_ties_away_zero int32 1 3 = some ⟨0, 1⟩ ∧
    (div_rem_ties_away_zero int32 1 3).map div_result.quotient ≠
      some (Int.tdiv 1 3 + Int.sign 1 * Int.sign 3) := by
  decide

/-- Claim C15, amended. For every integer type at least as wide as int and every valid
input with abs_rem equal to abs_half_y and an odd divisor, the true fraction is below
one half, the threshold raised by the odd divisor is not reached, and each of the six
tie-breaking functions returns the truncating pair. -/
theorem odd_divisor_stays (T : IntType) (hb : 32 ≤ T.bits) (x y : Int)
    (hv : valid_input T x y)
    (heq : x.tmod y * __sgn2 T x = y.tdiv 2 * __sgn2 T y) (hodd : y.tmod 2 ≠ 0) :
    2 * |x.tmod y| < |y| ∧
    ¬(x.tmod y * __sgn2 T x ≥ y.tdiv 2 * __sgn2 T y + of_bool (decide (y.tmod 2 ≠ 0))) ∧
    ∀ f ∈ div_rem_ties_functions, f T x y = some ⟨x.tdiv y, x.tmod y⟩ := by
  obtain ⟨h1, h2, h3⟩ := ties_magnitudes hb hv
  have hlt : 2 * |x.tmod y| < |y| := by
    rcases h3 with ⟨h, -⟩ | ⟨-, h⟩
    · exact absurd h hodd
    · rw [h1, h, heq]
      omega
  refine ⟨hlt, ?_, ?_⟩
  · rw [decide_eq_true hodd, heq]
    simp only [of_bool, if_true]
    omega
  · intro f hf
    rw [(ties_off_tie_pairs hb hv f hf).2 hlt, offset_pair_false hb hv]

theorem odd_divisor_stays_witness :
    (32 ≤ int32.bits ∧ valid_input int32 1 3 ∧
      Int.tmod 1 3 * __sgn2 int32 1 = Int.tdiv 3 2 * __sgn2 int32 3 ∧ Int.tmod 3 2 ≠ 0) ∧
    2 * |Int.tmod 1 3| < |(3 : Int)| ∧
    ¬(Int.tmod 1 3 * __sgn2 int32 1 ≥
      Int.tdiv 3 2 * __sgn2 int32 3 + of_bool (decide (Int.tmod 3 2 ≠ 0))) ∧
    ∀ f ∈ div_rem_ties_functions, f int32 1 3 = some ⟨Int.tdiv 1 3, Int.tmod 1 3⟩ :=
  ⟨by decide, odd_divisor_stays int32 (by decide) 1 3 (by decide) (by decide) (by decide)⟩

theorem rat_div_neg_iff (x y : Int) :
    (x : ℚ) / (y : ℚ) < 0 ↔ (0 < x ∧ y < 0) ∨ (x < 0 ∧ 0 < y) := by
  rw [div_neg_iff]
  simp only [Int.cast_pos, Int.cast_lt_zero]

/-- Claim C16, counterexample. At x = 1 and y = -3 the truncating quotient is zero, not
negative, yet mod adds the divisor: it returns -2 and not x % y = 1. -/
theorem mod_truncating_quotient_counterexample :
    valid_input int32 1 (-3) ∧ Int.tdiv 1 (-3) = 0 ∧ Int.tmod 1 (-3) = 1 ∧
    mod int32 1 (-3) = some (-2) ∧ mod int32 1 (-3) ≠ some (Int.tmod 1 (-3)) := by
  decide

/-- Claim C16, amended. For every integer type at least as wide as int, in particular
every signed one, and every valid input, mod adds the divisor to the truncating remainder exactly when the exact
quotient x / y is negative (the operands have opposite signs) and x % y is nonzero;
this covers every input with a negative truncating quotient and a nonzero
remainder. -/
theorem mod_adds_divisor (T : IntType) (hb : 32 ≤ T.bits) (x y : Int)
    (hv : valid_input T x y) :
    ((x : ℚ) / (y : ℚ) < 0 ∧ x.tmod y ≠ 0 → mod T x y = some (x.tmod y + y)) ∧
    (¬((x : ℚ) / (y : ℚ) < 0 ∧ x.tmod y ≠ 0) → mod T x y = some (x.tmod y)) ∧
    (x.tdiv y < 0 ∧ x.tmod y ≠ 0 → mod T x y = some (x.tmod y + y)) := by
  have hA := to_neg_inf_decision x y
  have hm := mod_eq hb hv
  generalize hadj : (decide (x.tmod y ≠ 0) && decide (Int.xor x y < 0)) = adj at hm hA
  obtain ⟨hd1, -, -, hd4⟩ := to_neg_inf_step hb hv adj hadj
  have hrem : (offset_pair T x y adj).remainder = x.tmod y + of_bool adj * y := by
    simp only [offset_pair, hd1, neg_mul, sub_neg_eq_add]
    exact T.convert_of_represents hb hd4
  rw [hrem] at hm
  rw [hm, rat_div_neg_iff]
  obtain ⟨q, r, p, eq, er, hp, hid, hH, hc⟩ := valid_cases hb hv
  simp only [eq, er] at hA ⊢
  simp only [Option.some.injEq]
  cases adj
  · simp only [Bool.false_eq_true, false_iff] at hA
    simp only [of_bool, Bool.false_eq_true, if_false, zero_mul, add_zero]
    refine ⟨fun h => ?_, fun _ => trivial, fun h => ?_⟩ <;> omega
  · simp only [true_iff] at hA
    simp only [of_bool, if_true, one_mul]
    refine ⟨fun _ => trivial, fun h => ?_, fun _ => trivial⟩
    omega

theorem mod_adds_divisor_witness :
    (32 ≤ int32.bits ∧ valid_input int32 1 (-3)) ∧
    (((1 : Int) : ℚ) / ((-3 : Int) : ℚ) < 0 ∧ Int.tmod 1 (-3) ≠ 0 →
      mod int32 1 (-3) = some (Int.tmod 1 (-3) + -3)) ∧
    (¬(((1 : Int) : ℚ) / ((-3 : Int) : ℚ) < 0 ∧ Int.tmod 1 (-3) ≠ 0) →
      mod int32 1 (-3) = some (Int.tmod 1 (-3))) ∧
    (Int.tdiv 1 (-3) < 0 ∧ Int.tmod 1 (-3) ≠ 0 →
      mod int32 1 (-3) = some (Int.tmod 1 (-3) + -3)) :=
  ⟨by decide, mod_adds_divisor int32 (by decide) 1 (-3) (by decide)⟩

/-- Claim C17, the failing input. For the 16-bit signed type, the direct call of
__div_rem_offset_quotient with x = 1, y = -2 and d = -1, three values of the type:
the quotient and the truncating remainder are computed in int without overflow, the
operands U(d) = 65535 and U(y) = 65534 of the unsigned counterpart are promoted to
int, their product 4294770690 is not a value of int, and the call has no defined
result. -/
theorem narrow_type_product_overflows :
    valid_input int16 1 (-2) ∧ int16.represents (-1) ∧
    int16.promote = int32 ∧ int16.make_unsigned.promote = int32 ∧
    int32.div 1 (-2) = some 0 ∧ int32.add 0 (-1) = some (-1) ∧
    int32.rem 1 (-2) = some 1 ∧
    int16.make_unsigned.convert (-1) = 65535 ∧ int16.make_unsigned.convert (-2) = 65534 ∧
    ¬int32.represents (65535 * 65534) ∧
    int32.mul 65535 65534 = none ∧
    __div_rem_offset_quotient int16 1 (-2) (-1) = none := by
  decide

/-- Claim C18, counterexample. For signed 32-bit x = 2147483647, y = 1 and d = 1 the
sum x / y + d overflows and the helper has no defined result; for unsigned 32-bit
x = 4294967295, y = 1 and d = 1 the returned quotient is 0, not x / y + d; for signed
16-bit x = 1, y = -2 and d = -1 the promoted product overflows int and the helper has
no defined result. -/
theorem offset_quotient_contract_counterexample :
    (valid_input int32 2147483647 1 ∧
      __div_rem_offset_quotient int32 2147483647 1 1 = none) ∧
    (valid_input uint32 4294967295 1 ∧
      __div_rem_offset_quotient uint32 4294967295 1 1 = some ⟨0, 4294967295⟩ ∧
      (0 : Int) ≠ Int.tdiv 4294967295 1 + 1) ∧
    (valid_input int16 1 (-2) ∧ int16.represents (Int.tdiv 1 (-2) + -1) ∧
      __div_rem_offset_quotient int16 1 (-2) (-1) = none) := by
  decide

/-- Claim C18, amended. For every integer type that is at least as wide as int, or
unsigned of at most 16 bits, or signed of at most 15 bits, every valid input and every
step d in {-1, 0, 1} (d in {0, 1} for an unsigned type) for which x / y + d is
representable in the type, __div_rem_offset_quotient returns the quotient x / y + d
and a remainder congruent to x % y - d * y modulo two to the width, so that
y * quotient + remainder is congruent to x; for a signed type the remainder equals
x % y - d * y whenever that integer is representable. -/
theorem offset_quotient_contract (T : IntType) (x y d : Int)
    (hw : 32 ≤ T.bits ∨ (1 ≤ T.bits ∧ (T.bits ≤ 15 ∨ (T.is_signed = false ∧ T.bits ≤ 16))))
    (hv : valid_input T x y) (hd : d = -1 ∨ d = 0 ∨ d = 1)
    (hu : T.is_signed = false → d = 0 ∨ d = 1)
    (hqd : T.represents (x.tdiv y + d)) :
    ∃ r : Int, __div_rem_offset_quotient T x y d = some ⟨x.tdiv y + d, r⟩ ∧
      r % T.modulus = (x.tmod y - d * y) % T.modulus ∧
      (y * (x.tdiv y + d) + r) % T.modulus = x % T.modulus ∧
      (T.is_signed = true → T.represents (x.tmod y - d * y) → r = x.tmod y - d * y) := by
  have key : ∃ r : Int, __div_rem_offset_quotient T x y d = some ⟨x.tdiv y + d, r⟩ ∧
      r % T.modulus = (x.tmod y - d * y) % T.modulus ∧
      (T.represents (x.tmod y - d * y) → r = x.tmod y - d * y) := by
    rcases hw with hb | ⟨h1, h2⟩
    · exact ⟨T.convert (x.tmod y - d * y), offset_quotient_general hb hv d hqd,
        T.convert_emod_modulus _, fun h => T.convert_of_represents hb h⟩
    · exact offset_quotient_narrow h1 h2 hv d (by omega)
        (fun hs => by rcases hu hs with h | h <;> omega) hqd
  obtain ⟨r, e, hr, hexact⟩ := key
  refine ⟨r, e, hr, ?_, fun _ h => hexact h⟩
  have h1 : (y * (x.tdiv y + d) + r) % T.modulus =
      (y * (x.tdiv y + d) + (x.tmod y - d * y)) % T.modulus :=
    Int.ModEq.add_left _ hr
  rw [h1]
  congr 1
  linear_combination Int.tdiv_add_tmod x y

theorem offset_quotient_contract_witness :
    ((32 ≤ int8.bits ∨
        (1 ≤ int8.bits ∧ (int8.bits ≤ 15 ∨ (int8.is_signed = false ∧ int8.bits ≤ 16)))) ∧
      valid_input int8 (-128) 127 ∧ ((-1 : Int) = -1 ∨ (-1 : Int) = 0 ∨ (-1 : Int) = 1) ∧
      (int8.is_signed = false → (-1 : Int) = 0 ∨ (-1 : Int) = 1) ∧
      int8.represents (Int.tdiv (-128) 127 + -1)) ∧
    ∃ r : Int, __div_rem_offset_quotient int8 (-128) 127 (-1) =
        some ⟨Int.tdiv (-128) 127 + -1, r⟩ ∧
      r % int8.modulus = (Int.tmod (-128) 127 - -1 * 127) % int8.modulus ∧
      (127 * (Int.tdiv (-128) 127 + -1) + r) % int8.modulus = -128 % int8.modulus ∧
      (int8.is_signed = true → int8.represents (Int.tmod (-128) 127 - -1 * 127) →
        r = Int.tmod (-128) 127 - -1 * 127) :=
  ⟨by decide,
    offset_quotient_contract int8 (-128) 127 (-1) (by decide) (by decide) (by decide)
      (by decide) (by decide)⟩

/-- For each policy the decisions at two ordered dividends of equal truncating
quotient by a positive divisor: a step at the smaller positive dividend is kept at the
larger one, a step at the larger negative dividend is kept at the smaller one. -/
theorem policy_mono_cases {T : IntType} (hb : 32 ≤ T.bits) {x1 x2 y : Int}
    (hv1 : valid_input T x1 y) (hv2 : valid_input T x2 y) (hy : 0 < y) (hx : x1 ≤ x2) :
    ∀ f ∈ div_rem_functions, ∃ inc1 inc2 : Bool,
      f T x1 y = some (offset_pair T x1 y inc1) ∧
      f T x2 y = some (offset_pair T x2 y inc2) ∧
      (x1.tdiv y = x2.tdiv y → 0 < x1 → inc1 = true → inc2 = true) ∧
      (x1.tdiv y = x2.tdiv y → x2 < 0 → inc2 = true → inc1 = true) := by
  intro f hf
  simp only [div_rem_functions, List.mem_cons, List.mem_singleton, List.not_mem_nil,
    or_false] at hf
  rcases hf with h | h | h | h | h | h | h | h | h | h | h | h <;> subst h
  refine ⟨_, _, div_rem_to_zero_eq hb hv1, div_rem_to_zero_eq hb hv2, ?_, ?_⟩
  rotate_left 2
  refine ⟨_, _, div_rem_away_zero_eq hb hv1, div_rem_away_zero_eq hb hv2, ?_, ?_⟩
  rotate_left 2
  refine ⟨_, _, div_rem_to_pos_inf_eq hb hv1, div_rem_to_pos_inf_eq hb hv2, ?_, ?_⟩
  rotate_left 2
  refine ⟨_, _, div_rem_to_neg_inf_eq hb hv1, div_rem_to_neg_inf_eq hb hv2, ?_, ?_⟩
  rotate_left 2
  refine ⟨_, _, div_rem_to_odd_eq hb hv1, div_rem_to_odd_eq hb hv2, ?_, ?_⟩
  rotate_left 2
  refine ⟨_, _, div_rem_to_even_eq hb hv1, div_rem_to_even_eq hb hv2, ?_, ?_⟩
  rotate_left 2
  refine ⟨_, _, div_rem_ties_to_zero_eq hb hv1, div_rem_ties_to_zero_eq hb hv2, ?_, ?_⟩
  rotate_left 2
  refine ⟨_, _, div_rem_ties_away_zero_eq hb hv1, div_rem_ties_away_zero_eq hb hv2, ?_, ?_⟩
  rotate_left 2
  refine ⟨_, _, div_rem_ties_to_pos_inf_eq hb hv1, div_rem_ties_to_pos_inf_eq hb hv2, ?_, ?_⟩
  rotate_left 2
  refine ⟨_, _, div_rem_ties_to_neg_inf_eq hb hv1, div_rem_ties_to_neg_inf_eq hb hv2, ?_, ?_⟩
  rotate_left 2
  refine ⟨_, _, div_rem_ties_to_odd_eq hb hv1, div_rem_ties_to_odd_eq hb hv2, ?_, ?_⟩
  rotate_left 2
  refine ⟨_, _, div_rem_ties_to_even_eq hb hv1, div_rem_ties_to_even_eq hb hv2, ?_, ?_⟩
  rotate_left 2
  all_goals
    intro hq hs hinc
    obtain ⟨hr, hP, hN⟩ := same_quotient_facts hb hv1 hv2 hy hx hq
    first
      | cases hinc
      | (have h3 : __sgn2 T x1 = 1 ∧ __sgn2 T x2 = 1 ∧ 0 ≤ x1.tmod y := by
           apply hP
           exact hs
         obtain ⟨s1, s2, hr1⟩ := h3
         simp only [Bool.and_eq_true, decide_eq_true_eq, ge_iff_le, xor_nonneg_iff,
           xor_neg_iff, ← hq, s1, s2] at hinc ⊢
         omega)
      | (have h3 : __sgn2 T x1 = -1 ∧ __sgn2 T x2 = -1 ∧ x2.tmod y ≤ 0 := by
           apply hN
           exact hs
         obtain ⟨s1, s2, hr1⟩ := h3
         simp only [Bool.and_eq_true, decide_eq_true_eq, ge_iff_le, xor_nonneg_iff,
           xor_neg_iff, ← hq, s1, s2] at hinc ⊢
         omega)

/-- Claim C20. For every integer type at least as wide as int, signed or unsigned,
each of the twelve paired functions, every divisor y > 0 and all dividends x1 ≤ x2,
the quotient for (x1, y) is at most the quotient for (x2, y). -/
theorem quotient_monotone (T : IntType) (hb : 32 ≤ T.bits) (x1 x2 y : Int)
    (hv1 : valid_input T x1 y) (hv2 : valid_input T x2 y) (hy : 0 < y) (hx : x1 ≤ x2) :
    ∀ f ∈ div_rem_functions, ∃ a b : div_result,
      f T x1 y = some a ∧ f T x2 y = some b ∧ a.quotient ≤ b.quotient := by
  intro f hf
  obtain ⟨inc1, inc2, e1, e2, k1, k2⟩ := policy_mono_cases hb hv1 hv2 hy hx f hf
  exact ⟨_, _, e1, e2, offset_quotient_mono hb hv1 hv2 hy hx inc1 inc2
    (increment_nonzero hb hv1 hf e1) (increment_nonzero hb hv2 hf e2) k1 k2⟩

theorem quotient_monotone_witness :
    (32 ≤ int32.bits ∧ valid_input int32 (-3) 2 ∧ valid_input int32 5 2 ∧
      (0 : Int) < 2 ∧ (-3 : Int) ≤ 5) ∧
    ∀ f ∈ div_rem_functions, ∃ a b : div_result,
      f int32 (-3) 2 = some a ∧ f int32 5 2 = some b ∧ a.quotient ≤ b.quotient :=
  ⟨by decide,
    quotient_monotone int32 (by decide) (-3) 5 2 (by decide) (by decide) (by decide)
      (by decide)⟩

end IntDiv
